import Mathlib

/-!
Verification of the `TextField` single-line editor and the width-bounded line
renderer of the `idiom_tui` repository (src/src/text_field.rs, src/src/layout/line.rs,
src/src/utils/mod.rs).

The text is modelled as a `List Char`; byte offsets into the Rust `String` are
modelled through `utf8Len`, the UTF-8 encoded size of a scalar value, which
matches Rust's `char::len_utf8` exactly.  All cursor and selection positions
are byte offsets, as in the source.
-/

namespace IdiomTui

/-- Number of bytes of the UTF-8 encoding of a character; mirrors Rust's
`char::len_utf8`. -/
def utf8Len (c : Char) : Nat :=
  if c.toNat < 0x80 then 1
  else if c.toNat < 0x800 then 2
  else if c.toNat < 0x10000 then 3
  else 4

/-- Byte length of a text, mirroring Rust's `String::len`. -/
def byteLen : List Char → Nat
  | [] => 0
  | c :: rest => utf8Len c + byteLen rest

/-- Decides whether a byte offset lies on a character boundary of the text
(offset 0 and the total byte length included), i.e. whether Rust would accept
it as a slice index. -/
def isBoundary : List Char → Nat → Bool
  | _, 0 => true
  | [], _ + 1 => false
  | c :: rest, i + 1 =>
    if i + 1 < utf8Len c then false else isBoundary rest (i + 1 - utf8Len c)

/-- Splits the text at a byte offset; models Rust string slicing
`(&text[..i], &text[i..])`.  Only used at character boundaries (where Rust
would not panic); at a non-boundary offset the partially covered character
goes to the left part. -/
def splitAtByte : List Char → Nat → List Char × List Char
  | t, 0 => ([], t)
  | [], _ + 1 => ([], [])
  | c :: rest, i + 1 =>
    let p := splitAtByte rest (i + 1 - utf8Len c)
    (c :: p.1, p.2)

/-- Models Rust's `str::char_indices` starting from byte position `pos`. -/
def charIndicesFrom : Nat → List Char → List (Nat × Char)
  | _, [] => []
  | pos, c :: rest => (pos, c) :: charIndicesFrom (pos + utf8Len c) rest

/-- Models Rust's `str::char_indices`. -/
def charIndices (t : List Char) : List (Nat × Char) :=
  charIndicesFrom 0 t

theorem utf8Len_pos (c : Char) : 1 ≤ utf8Len c := by
  unfold utf8Len; repeat' split
  all_goals omega

@[simp] theorem byteLen_nil : byteLen [] = 0 := rfl

@[simp] theorem byteLen_cons (c : Char) (t : List Char) :
    byteLen (c :: t) = utf8Len c + byteLen t := rfl

@[simp] theorem byteLen_append (s t : List Char) :
    byteLen (s ++ t) = byteLen s + byteLen t := by
  induction s with
  | nil => simp
  | cons c s ih => simp [ih]; omega

@[simp] theorem isBoundary_zero (t : List Char) : isBoundary t 0 = true := by
  cases t <;> rfl

theorem isBoundary_cons (c : Char) (t : List Char) (i : Nat) :
    isBoundary (c :: t) i =
      if i = 0 then true
      else if i < utf8Len c then false
      else isBoundary t (i - utf8Len c) := by
  rcases i with _ | i <;> simp [isBoundary]

theorem splitAtByte_cons (c : Char) (t : List Char) (i : Nat) :
    splitAtByte (c :: t) i =
      if i = 0 then ([], c :: t)
      else ((c :: (splitAtByte t (i - utf8Len c)).1, (splitAtByte t (i - utf8Len c)).2)) := by
  rcases i with _ | i <;> simp [splitAtByte]

@[simp] theorem splitAtByte_zero (t : List Char) : splitAtByte t 0 = ([], t) := by
  cases t <;> rfl

theorem splitAtByte_join (t : List Char) (i : Nat) :
    (splitAtByte t i).1 ++ (splitAtByte t i).2 = t := by
  induction t generalizing i with
  | nil => rcases i with _ | i <;> simp [splitAtByte]
  | cons c rest ih =>
    rcases i with _ | i
    · simp
    · simp [splitAtByte, ih]

theorem splitAtByte_append (s t : List Char) :
    splitAtByte (s ++ t) (byteLen s) = (s, t) := by
  induction s with
  | nil => simp
  | cons c s ih =>
    have hc := utf8Len_pos c
    rw [List.cons_append, byteLen_cons, splitAtByte_cons]
    rw [if_neg (by omega)]
    have h2 : utf8Len c + byteLen s - utf8Len c = byteLen s := by omega
    rw [h2, ih]

theorem splitAtByte_byteLen (t : List Char) : splitAtByte t (byteLen t) = (t, []) := by
  have := splitAtByte_append t []
  simpa using this

theorem isBoundary_of_byteLen_eq (s t : List Char) (i : Nat) (h : i = byteLen s) :
    isBoundary (s ++ t) i = true := by
  subst h
  induction s with
  | nil => simp
  | cons c s ih =>
    have hc := utf8Len_pos c
    rw [List.cons_append, byteLen_cons, isBoundary_cons]
    rw [if_neg (by omega), if_neg (by omega)]
    have h2 : utf8Len c + byteLen s - utf8Len c = byteLen s := by omega
    rw [h2]
    exact ih

theorem isBoundary_byteLen (t : List Char) : isBoundary t (byteLen t) = true := by
  have := isBoundary_of_byteLen_eq t [] (byteLen t) rfl
  simpa using this

/-- A boundary offset decomposes the text into a prefix of that byte length
and a remaining suffix. -/
theorem isBoundary_decomp (t : List Char) (i : Nat) (h : isBoundary t i = true) :
    ∃ p s, t = p ++ s ∧ byteLen p = i := by
  induction t generalizing i with
  | nil =>
    rcases i with _ | i
    · exact ⟨[], [], rfl, rfl⟩
    · simp [isBoundary] at h
  | cons c rest ih =>
    rcases i with _ | i
    · exact ⟨[], c :: rest, rfl, rfl⟩
    · rw [isBoundary_cons] at h
      rw [if_neg (by omega)] at h
      by_cases hlt : i + 1 < utf8Len c
      · rw [if_pos hlt] at h; cases h
      · rw [if_neg hlt] at h
        obtain ⟨p, s, hps, hlen⟩ := ih _ h
        refine ⟨c :: p, s, by simp [hps], ?_⟩
        simp [hlen]; omega

theorem isBoundary_le (t : List Char) (i : Nat) (h : isBoundary t i = true) :
    i ≤ byteLen t := by
  obtain ⟨p, s, hps, hlen⟩ := isBoundary_decomp t i h
  subst hps; simp [← hlen]

theorem splitAtByte_of_isBoundary (t : List Char) (i : Nat) (h : isBoundary t i = true) :
    t = (splitAtByte t i).1 ++ (splitAtByte t i).2 ∧ byteLen (splitAtByte t i).1 = i := by
  obtain ⟨p, s, hps, hlen⟩ := isBoundary_decomp t i h
  subst hps; subst hlen
  rw [splitAtByte_append]
  exact ⟨rfl, rfl⟩

theorem isBoundary_append_left (p s : List Char) (i : Nat)
    (h : isBoundary p i = true) : isBoundary (p ++ s) i = true := by
  obtain ⟨a, b, hab, hlen⟩ := isBoundary_decomp p i h
  subst hab
  rw [List.append_assoc]
  exact isBoundary_of_byteLen_eq a (b ++ s) i hlen.symm

theorem isBoundary_append_add (p s : List Char) (j : Nat) :
    isBoundary (p ++ s) (byteLen p + j) = isBoundary s j := by
  induction p with
  | nil => simp
  | cons c p ih =>
    have hc := utf8Len_pos c
    rw [List.cons_append, byteLen_cons, isBoundary_cons]
    rw [if_neg (by omega), if_neg (by omega)]
    have h2 : utf8Len c + byteLen p + j - utf8Len c = byteLen p + j := by omega
    rw [h2]
    exact ih

/-- Two boundary offsets `a ≤ b` decompose the text into three parts, and the
two nested splits used by the source compute exactly those parts. -/
theorem splice_decomp (t : List Char) (a b : Nat)
    (ha : isBoundary t a = true) (hb : isBoundary t b = true) (hab : a ≤ b) :
    ∃ p m s, t = p ++ m ++ s ∧ byteLen p = a ∧ byteLen m = b - a ∧
      splitAtByte t a = (p, m ++ s) ∧ splitAtByte (m ++ s) (b - a) = (m, s) := by
  obtain ⟨p, r, hpr, hlenp⟩ := isBoundary_decomp t a ha
  subst hpr
  have hb' : isBoundary r (b - a) = true := by
    have : byteLen p + (b - a) = b := by omega
    rw [← isBoundary_append_add p r (b - a), this]
    exact hb
  obtain ⟨m, s, hms, hlenm⟩ := isBoundary_decomp r (b - a) hb'
  subst hms
  refine ⟨p, m, s, by simp, hlenp, hlenm, ?_, ?_⟩
  · rw [← hlenp, splitAtByte_append]
  · rw [← hlenm, splitAtByte_append]

theorem mem_of_splitAtByte_left (t : List Char) (i : Nat) (c : Char)
    (h : c ∈ (splitAtByte t i).1) : c ∈ t := by
  have := splitAtByte_join t i
  rw [← this]
  exact List.mem_append_left _ h

theorem mem_of_splitAtByte_right (t : List Char) (i : Nat) (c : Char)
    (h : c ∈ (splitAtByte t i).2) : c ∈ t := by
  have := splitAtByte_join t i
  rw [← this]
  exact List.mem_append_right _ h

theorem getLast?_concat_decomp (l : List Char) (c : Char)
    (h : l.getLast? = some c) : ∃ p, l = p ++ [c] := by
  induction l with
  | nil => cases h
  | cons a rest ih =>
    cases rest with
    | nil =>
      simp [List.getLast?] at h
      exact ⟨[], by simp [h]⟩
    | cons b rest' =>
      rw [List.getLast?_cons_cons] at h
      obtain ⟨p, hp⟩ := ih h
      exact ⟨a :: p, by simp [hp]⟩

theorem charIndicesFrom_mem (t : List Char) (pos : Nat) (x : Nat × Char)
    (h : x ∈ charIndicesFrom pos t) :
    ∃ j, x.1 = pos + j ∧ isBoundary t j = true ∧ j < byteLen t := by
  induction t generalizing pos with
  | nil => simp [charIndicesFrom] at h
  | cons c rest ih =>
    have hc := utf8Len_pos c
    simp only [charIndicesFrom, List.mem_cons] at h
    rcases h with h | h
    · refine ⟨0, by simp [h], by simp, by simp; omega⟩
    · obtain ⟨j, hj1, hj2, hj3⟩ := ih (pos + utf8Len c) h
      refine ⟨utf8Len c + j, by omega, ?_, by simp; omega⟩
      rw [isBoundary_cons, if_neg (by omega), if_neg (by omega)]
      have : utf8Len c + j - utf8Len c = j := by omega
      rw [this]; exact hj2

/-! ## The Status signal (src/src/text_field.rs, lines 13-52) -/

/-- Result signal of every mutating or movement operation; the derived Rust
`Ord` ranks the variants in declaration order. -/
inductive Status where
  | Skipped
  | UpdatedCursor
  | Updated
deriving DecidableEq, Repr

/-- Rank induced by the derived `Ord` (declaration order). -/
def Status.rank : Status → Nat
  | .Skipped => 0
  | .UpdatedCursor => 1
  | .Updated => 2

/-- Model of the derived total order on `Status`. -/
def Status.le (a b : Status) : Bool :=
  a.rank ≤ b.rank

/-- Model of `impl Add for Status`, which is `std::cmp::max(self, rhs)`;
`max` returns the second argument when they are equal. -/
def Status.add (a b : Status) : Status :=
  if b.rank < a.rank then a else b

instance : Fintype Status where
  elems := {.Skipped, .UpdatedCursor, .Updated}
  complete := by intro a; cases a <;> simp

/-! ## The TextField buffer (src/src/text_field.rs)

All stateful methods are modelled as functions from the old state to a pair of
result and new state. -/

/-- Single line input field: the text, the cursor as a byte offset (`char` in
the source), and an optional unnormalized selection pair of byte offsets. -/
structure TextField where
  text : List Char
  char : Nat
  select : Option (Nat × Nat)
deriving DecidableEq, Repr

/-- Models `TextField::new`: cursor at the end of the text. -/
def TextField.new (text : List Char) : TextField :=
  { text := text, char := byteLen text, select := none }

/-- Models `TextField::select`: the normalized selection. -/
def TextField.normSelect (tf : TextField) : Option (Nat × Nat) :=
  tf.select.map fun p => if p.1 > p.2 then (p.2, p.1) else p

/-- Models `TextField::select_drop`. -/
def TextField.select_drop (tf : TextField) : Status × TextField :=
  match tf.select with
  | some _ => (.UpdatedCursor, { tf with select := none })
  | none => (.Skipped, tf)

/-- Models the private `TextField::get_selected` (used by `copy`): returns the
normalized selected slice without mutating. -/
def TextField.get_selected (tf : TextField) : Option (List Char) :=
  match tf.select with
  | none => none
  | some (a, b) =>
    let f := if a > b then b else a
    let t := if a > b then a else b
    if f = t then none
    else some (splitAtByte (splitAtByte tf.text f).2 (t - f)).1

/-- Models the private `TextField::take_selected`: always consumes the
selection (`Option::take`), and when it is non-empty removes the selected
bytes and moves the cursor to the selection start. -/
def TextField.take_selected (tf : TextField) : Option (List Char) × TextField :=
  match tf.select with
  | none => (none, tf)
  | some (a, b) =>
    let f := if a > b then b else a
    let t := if a > b then a else b
    let tf0 := { tf with select := none }
    if f = t then (none, tf0)
    else
      let p := splitAtByte tf0.text f
      let q := splitAtByte p.2 (t - f)
      (some q.1, { tf0 with text := p.1 ++ q.2, char := f })

/-- Models `TextField::copy`. -/
def TextField.copy (tf : TextField) : Option (List Char) :=
  tf.get_selected

/-- Models `TextField::cut`. -/
def TextField.cut (tf : TextField) : Option (List Char) × TextField :=
  tf.take_selected

/-- Models `TextField::paste_passthrough`: rejects clips containing a newline,
otherwise consumes the selection, inserts the clip at the cursor and advances
the cursor by the clip's byte length. -/
def TextField.paste_passthrough (tf : TextField) (clip : List Char) : Status × TextField :=
  if clip.contains '\n' then (.Skipped, tf)
  else
    let tf1 := tf.take_selected.2
    let p := splitAtByte tf1.text tf1.char
    (.Updated, { tf1 with text := p.1 ++ clip ++ p.2, char := tf1.char + byteLen clip })

/-- Models `TextField::push_char`. -/
def TextField.push_char (tf : TextField) (ch : Char) : Status × TextField :=
  let tf1 := tf.take_selected.2
  let p := splitAtByte tf1.text tf1.char
  (.Updated, { tf1 with text := p.1 ++ ch :: p.2, char := tf1.char + utf8Len ch })

/-- Models `TextField::del`. -/
def TextField.del (tf : TextField) : Status × TextField :=
  let r := tf.take_selected
  match r.1 with
  | some _ => (.Updated, r.2)
  | none =>
    if r.2.char < byteLen r.2.text ∧ r.2.text ≠ [] then
      let p := splitAtByte r.2.text r.2.char
      (.Updated, { r.2 with text := p.1 ++ p.2.drop 1 })
    else (.Skipped, r.2)

/-- Models the private `TextField::prev_char`. -/
def TextField.prev_char (tf : TextField) : Status × TextField :=
  match (splitAtByte tf.text tf.char).1.getLast? with
  | some c => (.UpdatedCursor, { tf with char := tf.char - utf8Len c })
  | none => (.Skipped, tf)

/-- Models the private `TextField::next_char`. -/
def TextField.next_char (tf : TextField) : Status × TextField :=
  match (splitAtByte tf.text tf.char).2 with
  | c :: _ => (.UpdatedCursor, { tf with char := tf.char + utf8Len c })
  | [] => (.Skipped, tf)

/-- Models `TextField::backspace`. -/
def TextField.backspace (tf : TextField) : Status × TextField :=
  let r := tf.take_selected
  match r.1 with
  | some _ => (.Updated, r.2)
  | none =>
    if r.2.char > 0 ∧ r.2.text ≠ [] then
      let tf2 := r.2.prev_char.2
      let p := splitAtByte tf2.text tf2.char
      (.Updated, { tf2 with text := p.1 ++ p.2.drop 1 })
    else (.Skipped, r.2)

/-- Models the private `should_jump`: Rust's `char::is_alphabetic ||
char::is_numeric`.  Those predicates come from the Unicode tables of the Rust
standard library, outside this repository; this model uses the ASCII portion
of the tables.  No claim below depends on which characters satisfy the
predicate, only on where the resulting cursor positions fall. -/
def should_jump (ch : Char) : Bool :=
  (('a' ≤ ch ∧ ch ≤ 'z') ∨ ('A' ≤ ch ∧ ch ≤ 'Z') ∨ ('0' ≤ ch ∧ ch ≤ '9'))

/-- Scan of `jump_left_move` over the reversed char indices of the cursor
prefix: keep walking while characters satisfy `should_jump`. -/
def jumpLeftScan : List (Nat × Char) → Nat → Nat
  | [], acc => acc
  | (idx, ch) :: rest, acc =>
    if should_jump ch then jumpLeftScan rest idx else acc

/-- Models the private `TextField::jump_left_move`. -/
def TextField.jump_left_move (tf : TextField) : Status × TextField :=
  let p := (splitAtByte tf.text tf.char).1
  let nc := jumpLeftScan (charIndices p).reverse tf.char
  if nc = tf.char then (.Skipped, tf)
  else (.UpdatedCursor, { tf with char := nc })

/-- Scan of `jump_right_move` over the char indices of the cursor suffix:
the relative offset of the first character failing `should_jump`. -/
def jumpRightScan : List (Nat × Char) → Option Nat
  | [] => none
  | (idx, ch) :: rest =>
    if should_jump ch then jumpRightScan rest else some idx

/-- Models the private `TextField::jump_right_move`. -/
def TextField.jump_right_move (tf : TextField) : Status × TextField :=
  let s := (splitAtByte tf.text tf.char).2
  match jumpRightScan (charIndices s) with
  | some idx => (.UpdatedCursor, { tf with char := tf.char + idx })
  | none =>
    if tf.char = byteLen tf.text then (.Skipped, tf)
    else (.UpdatedCursor, { tf with char := byteLen tf.text })

/-- Models the private `TextField::init_select`. -/
def TextField.init_select (tf : TextField) : Status × TextField :=
  match tf.select with
  | some _ => (.Skipped, tf)
  | none => (.UpdatedCursor, { tf with select := some (tf.char, tf.char) })

/-- Models the private `TextField::push_select`. -/
def TextField.push_select (tf : TextField) : Status × TextField :=
  match tf.select with
  | some (a, b) =>
    if b ≠ tf.char then (.UpdatedCursor, { tf with select := some (a, tf.char) })
    else (.Skipped, tf)
  | none => (.Skipped, tf)

/-- Models `TextField::go_left`. -/
def TextField.go_left (tf : TextField) : Status × TextField :=
  let r1 := tf.select_drop
  let r2 := r1.2.prev_char
  (r1.1.add r2.1, r2.2)

/-- Models `TextField::select_left`. -/
def TextField.select_left (tf : TextField) : Status × TextField :=
  let r1 := tf.init_select
  let r2 := r1.2.prev_char
  let r3 := r2.2.push_select
  ((r1.1.add r2.1).add r3.1, r3.2)

/-- Models `TextField::jump_left`. -/
def TextField.jump_left (tf : TextField) : Status × TextField :=
  let r1 := tf.select_drop
  let r2 := r1.2.prev_char
  let r3 := r2.2.jump_left_move
  ((r1.1.add r2.1).add r3.1, r3.2)

/-- Models `TextField::select_jump_left`. -/
def TextField.select_jump_left (tf : TextField) : Status × TextField :=
  let r1 := tf.init_select
  let r2 := r1.2.prev_char
  let r3 := r2.2.jump_left_move
  let r4 := r3.2.push_select
  (((r1.1.add r2.1).add r3.1).add r4.1, r4.2)

/-- Models `TextField::go_right`. -/
def TextField.go_right (tf : TextField) : Status × TextField :=
  let r1 := tf.select_drop
  let r2 := r1.2.next_char
  (r1.1.add r2.1, r2.2)

/-- Models `TextField::select_right`. -/
def TextField.select_right (tf : TextField) : Status × TextField :=
  let r1 := tf.init_select
  let r2 := r1.2.next_char
  let r3 := r2.2.push_select
  ((r1.1.add r2.1).add r3.1, r3.2)

/-- Models `TextField::jump_right`. -/
def TextField.jump_right (tf : TextField) : Status × TextField :=
  let r1 := tf.select_drop
  let r2 := r1.2.next_char
  let r3 := r2.2.jump_right_move
  ((r1.1.add r2.1).add r3.1, r3.2)

/-- Models `TextField::select_jump_right`. -/
def TextField.select_jump_right (tf : TextField) : Status × TextField :=
  let r1 := tf.init_select
  let r2 := r1.2.next_char
  let r3 := r2.2.jump_right_move
  let r4 := r3.2.push_select
  (((r1.1.add r2.1).add r3.1).add r4.1, r4.2)

/-- Models `TextField::select_all`. -/
def TextField.select_all (tf : TextField) : Status × TextField :=
  if tf.text = [] then (.Skipped, tf)
  else
    let ns : Option (Nat × Nat) := some (0, byteLen tf.text)
    if tf.char = byteLen tf.text ∧ tf.select = ns then (.Skipped, tf)
    else (.UpdatedCursor, { tf with select := ns, char := byteLen tf.text })

/-- Models `TextField::start_of_line`. -/
def TextField.start_of_line (tf : TextField) : Status × TextField :=
  if tf.char = 0 ∧ tf.select = none then (.Skipped, tf)
  else (.UpdatedCursor, { tf with char := 0, select := none })

/-- Models `TextField::end_of_line`. -/
def TextField.end_of_line (tf : TextField) : Status × TextField :=
  if tf.char = byteLen tf.text ∧ tf.select = none then (.Skipped, tf)
  else (.UpdatedCursor, { tf with char := byteLen tf.text, select := none })

/-! ## The token-boundary algorithm `arg_range_at` (src/src/text_field.rs, lines 562-587) -/

/-- Models Rust's `char::is_whitespace`, i.e. the Unicode `White_Space`
property, whose character list is reproduced here in full. -/
def rustIsWs (c : Char) : Bool :=
  c = ' ' ∨ c = '\t' ∨ c = '\n' ∨ c.toNat = 0x0b ∨ c.toNat = 0x0c ∨ c = '\r' ∨
  c.toNat = 0x85 ∨ c.toNat = 0xa0 ∨ c.toNat = 0x1680 ∨
  (0x2000 ≤ c.toNat ∧ c.toNat ≤ 0x200a) ∨
  c.toNat = 0x2028 ∨ c.toNat = 0x2029 ∨ c.toNat = 0x202f ∨
  c.toNat = 0x205f ∨ c.toNat = 0x3000

/-- Loop of `arg_range_at`: `pos` is the byte index of the current character,
`tokenStart` the start of the current non-whitespace run, `last` the flag
`last_not_in_token` (the previous character was whitespace). -/
def argRangeGo (idx : Nat) : List Char → Nat → Nat → Bool → Nat × Nat
  | [], pos, tokenStart, last =>
    if idx < pos then (tokenStart, pos)
    else if last = false ∧ tokenStart ≤ idx then (tokenStart, idx)
    else (idx, idx)
  | c :: rest, pos, tokenStart, last =>
    if rustIsWs c = false then
      argRangeGo idx rest (pos + utf8Len c) (if last then pos else tokenStart) false
    else if idx ≤ pos then
      if last then (idx, idx) else (tokenStart, pos)
    else argRangeGo idx rest (pos + utf8Len c) tokenStart true

/-- Models the free function `arg_range_at`. -/
def arg_range_at (line : List Char) (idx : Nat) : Nat × Nat :=
  argRangeGo idx line 0 0 false

/-- Models `TextField::select_token_at_cursor` (a `Range` is empty when its
start is not below its end). -/
def TextField.select_token_at_cursor (tf : TextField) : Status × TextField :=
  let r := arg_range_at tf.text tf.char
  if r.2 ≤ r.1 then (.Skipped, tf)
  else if tf.select = some r ∧ tf.char = r.2 then (.Skipped, tf)
  else (.UpdatedCursor, { tf with select := some r, char := r.2 })

/-- Models `TextField::replace_token`. -/
def TextField.replace_token (tf : TextField) (new : List Char) : TextField :=
  let r := arg_range_at tf.text tf.char
  let p := splitAtByte tf.text r.1
  let q := splitAtByte p.2 (r.2 - r.1)
  { text := p.1 ++ new ++ q.2, char := byteLen new + r.1, select := none }

/-! ## The boundary invariant (claim C1) -/

/-- Cursor and both raw selection endpoints sit on character boundaries. -/
def Inv (tf : TextField) : Prop :=
  isBoundary tf.text tf.char = true ∧
  ∀ a b, tf.select = some (a, b) →
    isBoundary tf.text a = true ∧ isBoundary tf.text b = true

theorem jumpLeftScan_mem (l : List (Nat × Char)) (acc : Nat) :
    jumpLeftScan l acc = acc ∨ ∃ c, (jumpLeftScan l acc, c) ∈ l := by
  induction l generalizing acc with
  | nil => exact Or.inl rfl
  | cons x rest ih =>
    obtain ⟨idx, ch⟩ := x
    by_cases hj : should_jump ch
    · rcases ih idx with h | ⟨c, hc⟩
      · exact Or.inr ⟨ch, by simp [jumpLeftScan, hj, h]⟩
      · exact Or.inr ⟨c, by simp only [jumpLeftScan, hj, if_true]; exact List.mem_cons_of_mem _ hc⟩
    · exact Or.inl (by simp [jumpLeftScan, hj])

theorem jumpRightScan_mem (l : List (Nat × Char)) (idx : Nat)
    (h : jumpRightScan l = some idx) : ∃ c, (idx, c) ∈ l := by
  induction l with
  | nil => simp [jumpRightScan] at h
  | cons x rest ih =>
    obtain ⟨i, ch⟩ := x
    by_cases hj : should_jump ch
    · simp only [jumpRightScan, hj, if_true] at h
      obtain ⟨c, hc⟩ := ih h
      exact ⟨c, List.mem_cons_of_mem _ hc⟩
    · simp only [jumpRightScan, hj, if_false] at h
      exact ⟨ch, by simp [← h.symm]; simp at h; simp [h]⟩

/-- Loop invariant of `arg_range_at`: starting from any reachable intermediate
state, both components of the result are character boundaries, the range is
ordered, and its end does not exceed the text. -/
theorem argRangeGo_bounds (idx : Nat) (t0 : List Char)
    (hidx : isBoundary t0 idx = true) (hle : idx ≤ byteLen t0) :
    ∀ (rest p : List Char) (ts : Nat) (last : Bool), t0 = p ++ rest →
      isBoundary t0 ts = true → ts ≤ byteLen p →
      isBoundary t0 (argRangeGo idx rest (byteLen p) ts last).1 = true ∧
      isBoundary t0 (argRangeGo idx rest (byteLen p) ts last).2 = true ∧
      (argRangeGo idx rest (byteLen p) ts last).1 ≤ (argRangeGo idx rest (byteLen p) ts last).2 ∧
      (argRangeGo idx rest (byteLen p) ts last).2 ≤ byteLen t0 := by
  intro rest
  induction rest with
  | nil =>
    intro p ts last ht hts htsle
    have hp : byteLen p = byteLen t0 := by rw [ht]; simp
    simp only [argRangeGo]
    split_ifs with h1 h2
    · refine ⟨hts, ?_, by omega, by omega⟩
      rw [hp]; exact isBoundary_byteLen t0
    · exact ⟨hts, hidx, h2.2, hle⟩
    · exact ⟨hidx, hidx, le_refl _, hle⟩
  | cons c rest ih =>
    intro p ts last ht hts htsle
    have hc := utf8Len_pos c
    have hsplit : t0 = (p ++ [c]) ++ rest := by rw [ht]; simp
    have hlen : byteLen (p ++ [c]) = byteLen p + utf8Len c := by simp
    have hpb : isBoundary t0 (byteLen p) = true := by
      rw [ht]; exact isBoundary_of_byteLen_eq p (c :: rest) _ rfl
    have hstep : argRangeGo idx (c :: rest) (byteLen p) ts last =
        if rustIsWs c = false then
          argRangeGo idx rest (byteLen p + utf8Len c) (if last then byteLen p else ts) false
        else if idx ≤ byteLen p then (if last then (idx, idx) else (ts, byteLen p))
        else argRangeGo idx rest (byteLen p + utf8Len c) ts true := rfl
    rw [hstep]
    by_cases hws : rustIsWs c = false
    · rw [if_pos hws]
      have hts' : isBoundary t0 (if last then byteLen p else ts) = true := by
        cases last
        · simpa using hts
        · simpa using hpb
      have htsle' : (if last then byteLen p else ts) ≤ byteLen (p ++ [c]) := by
        cases last
        · simp; omega
        · simp
      have H := ih (p ++ [c]) (if last then byteLen p else ts) false hsplit hts' htsle'
      rw [hlen] at H
      exact H
    · rw [if_neg hws]
      by_cases hip : idx ≤ byteLen p
      · rw [if_pos hip]
        cases last with
        | true =>
          have hred : (if (true : Bool) then (idx, idx) else (ts, byteLen p)) = (idx, idx) := rfl
          rw [hred]
          exact ⟨hidx, hidx, le_refl idx, hle⟩
        | false =>
          have hred : (if (false : Bool) then (idx, idx) else (ts, byteLen p)) =
            (ts, byteLen p) := rfl
          rw [hred]
          have hple : byteLen p ≤ byteLen t0 := by rw [ht]; simp
          exact ⟨hts, hpb, htsle, hple⟩
      · rw [if_neg hip]
        have H := ih (p ++ [c]) ts true hsplit hts (by simp; omega)
        rw [hlen] at H
        exact H

theorem arg_range_at_bounds (t : List Char) (idx : Nat)
    (hidx : isBoundary t idx = true) :
    isBoundary t (arg_range_at t idx).1 = true ∧
    isBoundary t (arg_range_at t idx).2 = true ∧
    (arg_range_at t idx).1 ≤ (arg_range_at t idx).2 ∧
    (arg_range_at t idx).2 ≤ byteLen t := by
  have h := argRangeGo_bounds idx t hidx (isBoundary_le t idx hidx)
    t [] 0 false (by simp) (by simp) (by simp)
  simpa [arg_range_at] using h

/-! ### Preservation of the invariant by every operation -/

theorem take_selected_select_none (tf : TextField) :
    tf.take_selected.2.select = none := by
  cases hs : tf.select with
  | none => simp [TextField.take_selected, hs]
  | some p =>
    obtain ⟨a, b⟩ := p
    by_cases hab : a > b
    · by_cases heq : b = a
      · simp [TextField.take_selected, hs, hab, heq]
      · simp [TextField.take_selected, hs, hab, heq]
    · by_cases heq : a = b
      · simp [TextField.take_selected, hs, hab, heq]
      · simp [TextField.take_selected, hs, hab, heq]

theorem take_selected_none_frame (tf : TextField) (h : tf.take_selected.1 = none) :
    tf.take_selected.2.text = tf.text ∧ tf.take_selected.2.char = tf.char := by
  cases hs : tf.select with
  | none => simp [TextField.take_selected, hs]
  | some p =>
    obtain ⟨a, b⟩ := p
    by_cases hab : a > b
    · by_cases heq : b = a
      · simp [TextField.take_selected, hs, hab, heq]
      · simp [TextField.take_selected, hs, hab, heq] at h
    · by_cases heq : a = b
      · simp [TextField.take_selected, hs, hab, heq]
      · simp [TextField.take_selected, hs, hab, heq] at h

/-- Removing the bytes between two boundary offsets leaves a state whose
cursor (at the left offset) is still a boundary. -/
theorem inv_of_remove (tf : TextField) (f t : Nat) (hf : isBoundary tf.text f = true)
    (ht : isBoundary tf.text t = true) (hft : f ≤ t) :
    Inv { text := (splitAtByte tf.text f).1 ++
            (splitAtByte (splitAtByte tf.text f).2 (t - f)).2,
          char := f, select := none } := by
  obtain ⟨P, M, S, hdec, hP, hM, hs1, hs2⟩ := splice_decomp tf.text f t hf ht hft
  constructor
  · show isBoundary ((splitAtByte tf.text f).1 ++
      (splitAtByte (splitAtByte tf.text f).2 (t - f)).2) f = true
    rw [hs1]
    show isBoundary (P ++ (splitAtByte (M ++ S) (t - f)).2) f = true
    rw [hs2]
    exact isBoundary_of_byteLen_eq P S f hP.symm
  · intro x y hxy
    simp at hxy

theorem take_selected_inv (tf : TextField) (h : Inv tf) : Inv tf.take_selected.2 := by
  obtain ⟨h1, h2⟩ := h
  cases hs : tf.select with
  | none =>
    simp only [TextField.take_selected, hs]
    exact ⟨h1, h2⟩
  | some p =>
    obtain ⟨a, b⟩ := p
    obtain ⟨hba, hbb⟩ := h2 a b hs
    by_cases hab : a > b
    · by_cases heq : b = a
      · exact absurd heq (by omega)
      · simp only [TextField.take_selected, hs]
        simp only [hab, heq, if_true, if_false]
        exact inv_of_remove tf b a hbb hba (by omega)
    · by_cases heq : a = b
      · simp only [TextField.take_selected, hs]
        simp only [hab, heq, if_true, if_false]
        exact ⟨h1, by intro x y hxy; simp at hxy⟩
      · simp only [TextField.take_selected, hs]
        simp only [hab, heq, if_true, if_false]
        exact inv_of_remove tf a b hba hbb (by omega)

theorem prev_char_frame (tf : TextField) :
    tf.prev_char.2.text = tf.text ∧ tf.prev_char.2.select = tf.select := by
  cases hl : (splitAtByte tf.text tf.char).1.getLast? with
  | none => simp [TextField.prev_char, hl]
  | some c => simp [TextField.prev_char, hl]

theorem prev_char_inv (tf : TextField) (h : Inv tf) : Inv tf.prev_char.2 := by
  obtain ⟨h1, h2⟩ := h
  obtain ⟨hjoin, hlen⟩ := splitAtByte_of_isBoundary tf.text tf.char h1
  cases hl : (splitAtByte tf.text tf.char).1.getLast? with
  | none =>
    simp only [TextField.prev_char, hl]
    exact ⟨h1, h2⟩
  | some c =>
    simp only [TextField.prev_char, hl]
    obtain ⟨q, hq⟩ := getLast?_concat_decomp _ c hl
    have hc := utf8Len_pos c
    have hql : byteLen q + utf8Len c = tf.char := by
      rw [← hlen, hq]; simp
    constructor
    · show isBoundary tf.text (tf.char - utf8Len c) = true
      have heq : q ++ ([c] ++ (splitAtByte tf.text tf.char).2) = tf.text := by
        conv_rhs => rw [hjoin, hq]
        simp
      have hb : isBoundary (q ++ ([c] ++ (splitAtByte tf.text tf.char).2))
          (tf.char - utf8Len c) = true :=
        isBoundary_of_byteLen_eq _ _ _ (by omega)
      rwa [heq] at hb
    · intro x y hxy
      exact h2 x y hxy

theorem next_char_frame (tf : TextField) :
    tf.next_char.2.text = tf.text ∧ tf.next_char.2.select = tf.select := by
  cases hsuf : (splitAtByte tf.text tf.char).2 with
  | nil => simp [TextField.next_char, hsuf]
  | cons c rest => simp [TextField.next_char, hsuf]

theorem next_char_inv (tf : TextField) (h : Inv tf) : Inv tf.next_char.2 := by
  obtain ⟨h1, h2⟩ := h
  obtain ⟨hjoin, hlen⟩ := splitAtByte_of_isBoundary tf.text tf.char h1
  cases hsuf : (splitAtByte tf.text tf.char).2 with
  | nil =>
    simp only [TextField.next_char, hsuf]
    exact ⟨h1, h2⟩
  | cons c rest =>
    simp only [TextField.next_char, hsuf]
    constructor
    · show isBoundary tf.text (tf.char + utf8Len c) = true
      have heq : ((splitAtByte tf.text tf.char).1 ++ [c]) ++ rest = tf.text := by
        conv_rhs => rw [hjoin, hsuf]
        simp
      have hb : isBoundary (((splitAtByte tf.text tf.char).1 ++ [c]) ++ rest)
          (tf.char + utf8Len c) = true :=
        isBoundary_of_byteLen_eq _ _ _ (by simp [hlen])
      rwa [heq] at hb
    · intro x y hxy
      exact h2 x y hxy

theorem select_drop_inv (tf : TextField) (h : Inv tf) : Inv tf.select_drop.2 := by
  obtain ⟨h1, h2⟩ := h
  cases hs : tf.select with
  | none =>
    simp only [TextField.select_drop, hs]
    exact ⟨h1, h2⟩
  | some p =>
    simp only [TextField.select_drop, hs]
    exact ⟨h1, by intro x y hxy; simp at hxy⟩

theorem init_select_inv (tf : TextField) (h : Inv tf) : Inv tf.init_select.2 := by
  obtain ⟨h1, h2⟩ := h
  cases hs : tf.select with
  | none =>
    simp only [TextField.init_select, hs]
    refine ⟨h1, ?_⟩
    intro x y hxy
    simp at hxy
    obtain ⟨hx, hy⟩ := hxy
    rw [← hx, ← hy]
    exact ⟨h1, h1⟩
  | some p =>
    simp only [TextField.init_select, hs]
    exact ⟨h1, h2⟩

theorem push_select_inv (tf : TextField) (h : Inv tf) : Inv tf.push_select.2 := by
  obtain ⟨h1, h2⟩ := h
  cases hs : tf.select with
  | none =>
    simp only [TextField.push_select, hs]
    exact ⟨h1, h2⟩
  | some p =>
    obtain ⟨a, b⟩ := p
    obtain ⟨hba, _⟩ := h2 a b hs
    by_cases heq : b = tf.char
    · simp only [TextField.push_select, hs]
      rw [if_neg (by simp [heq])]
      exact ⟨h1, h2⟩
    · simp only [TextField.push_select, hs]
      rw [if_pos heq]
      refine ⟨h1, ?_⟩
      intro x y hxy
      simp at hxy
      obtain ⟨hx, hy⟩ := hxy
      rw [← hx, ← hy]
      exact ⟨hba, h1⟩

theorem jump_left_move_inv (tf : TextField) (h : Inv tf) : Inv tf.jump_left_move.2 := by
  obtain ⟨h1, h2⟩ := h
  by_cases hnc : jumpLeftScan (charIndices (splitAtByte tf.text tf.char).1).reverse tf.char
      = tf.char
  · simp only [TextField.jump_left_move, hnc, if_pos rfl]
    exact ⟨h1, h2⟩
  · simp only [TextField.jump_left_move, if_neg hnc]
    refine ⟨?_, h2⟩
    rcases jumpLeftScan_mem (charIndices (splitAtByte tf.text tf.char).1).reverse tf.char
      with hsc | ⟨c, hsc⟩
    · rw [hsc]; exact h1
    · rw [List.mem_reverse] at hsc
      obtain ⟨j, hj1, hj2, _⟩ := charIndicesFrom_mem _ 0 _ hsc
      simp at hj1
      obtain ⟨hjoin, _⟩ := splitAtByte_of_isBoundary tf.text tf.char h1
      show isBoundary tf.text
        (jumpLeftScan (charIndices (splitAtByte tf.text tf.char).1).reverse tf.char) = true
      rw [hj1, hjoin]
      exact isBoundary_append_left _ _ _ hj2

theorem jump_right_move_inv (tf : TextField) (h : Inv tf) : Inv tf.jump_right_move.2 := by
  obtain ⟨h1, h2⟩ := h
  cases hs : jumpRightScan (charIndices (splitAtByte tf.text tf.char).2) with
  | none =>
    simp only [TextField.jump_right_move, hs]
    by_cases hend : tf.char = byteLen tf.text
    · rw [if_pos hend]
      exact ⟨h1, h2⟩
    · rw [if_neg hend]
      exact ⟨isBoundary_byteLen tf.text, h2⟩
  | some idx =>
    simp only [TextField.jump_right_move, hs]
    obtain ⟨c, hc⟩ := jumpRightScan_mem _ idx hs
    obtain ⟨j, hj1, hj2, _⟩ := charIndicesFrom_mem _ 0 _ hc
    simp at hj1
    obtain ⟨hjoin, hlen⟩ := splitAtByte_of_isBoundary tf.text tf.char h1
    refine ⟨?_, h2⟩
    show isBoundary tf.text (tf.char + idx) = true
    rw [hj1, hjoin]
    have hadd := isBoundary_append_add (splitAtByte tf.text tf.char).1
      (splitAtByte tf.text tf.char).2 j
    rw [hlen] at hadd
    rw [hadd]
    exact hj2

theorem select_all_inv (tf : TextField) (h : Inv tf) : Inv tf.select_all.2 := by
  obtain ⟨h1, h2⟩ := h
  simp only [TextField.select_all]
  by_cases hemp : tf.text = []
  · rw [if_pos hemp]
    exact ⟨h1, h2⟩
  · rw [if_neg hemp]
    by_cases hcond : tf.char = byteLen tf.text ∧ tf.select = some (0, byteLen tf.text)
    · rw [if_pos hcond]
      exact ⟨h1, h2⟩
    · rw [if_neg hcond]
      refine ⟨isBoundary_byteLen tf.text, ?_⟩
      intro a b hab
      have hr : ((0 : Nat), byteLen tf.text) = (a, b) := by injection hab
      have hz : isBoundary tf.text ((0 : Nat), byteLen tf.text).1 = true :=
        isBoundary_zero tf.text
      have hL : isBoundary tf.text ((0 : Nat), byteLen tf.text).2 = true :=
        isBoundary_byteLen tf.text
      rw [hr] at hz hL
      exact ⟨hz, hL⟩

theorem start_of_line_inv (tf : TextField) (h : Inv tf) : Inv tf.start_of_line.2 := by
  obtain ⟨h1, h2⟩ := h
  simp only [TextField.start_of_line]
  by_cases hcond : tf.char = 0 ∧ tf.select = none
  · rw [if_pos hcond]
    exact ⟨h1, h2⟩
  · rw [if_neg hcond]
    exact ⟨isBoundary_zero tf.text, by intro a b hab; simp at hab⟩

theorem end_of_line_inv (tf : TextField) (h : Inv tf) : Inv tf.end_of_line.2 := by
  obtain ⟨h1, h2⟩ := h
  simp only [TextField.end_of_line]
  by_cases hcond : tf.char = byteLen tf.text ∧ tf.select = none
  · rw [if_pos hcond]
    exact ⟨h1, h2⟩
  · rw [if_neg hcond]
    exact ⟨isBoundary_byteLen tf.text, by intro a b hab; simp at hab⟩

theorem select_token_at_cursor_inv (tf : TextField) (h : Inv tf) :
    Inv tf.select_token_at_cursor.2 := by
  obtain ⟨h1, h2⟩ := h
  obtain ⟨hr1, hr2, hr12, hrle⟩ := arg_range_at_bounds tf.text tf.char h1
  simp only [TextField.select_token_at_cursor]
  by_cases hc1 : (arg_range_at tf.text tf.char).2 ≤ (arg_range_at tf.text tf.char).1
  · rw [if_pos hc1]
    exact ⟨h1, h2⟩
  · rw [if_neg hc1]
    by_cases hc2 : tf.select = some (arg_range_at tf.text tf.char) ∧
        tf.char = (arg_range_at tf.text tf.char).2
    · rw [if_pos hc2]
      exact ⟨h1, h2⟩
    · rw [if_neg hc2]
      refine ⟨hr2, ?_⟩
      intro a b hab
      have hr : arg_range_at tf.text tf.char = (a, b) := by injection hab
      rw [hr] at hr1 hr2
      exact ⟨hr1, hr2⟩

theorem replace_token_inv (tf : TextField) (new : List Char) (h : Inv tf) :
    Inv (tf.replace_token new) := by
  obtain ⟨h1, h2⟩ := h
  obtain ⟨hr1, hr2, hr12, hrle⟩ := arg_range_at_bounds tf.text tf.char h1
  obtain ⟨P, M, S, hdec, hP, hM, hs1, hs2⟩ :=
    splice_decomp tf.text (arg_range_at tf.text tf.char).1
      (arg_range_at tf.text tf.char).2 hr1 hr2 hr12
  constructor
  · show isBoundary ((splitAtByte tf.text (arg_range_at tf.text tf.char).1).1 ++ new ++
      (splitAtByte (splitAtByte tf.text (arg_range_at tf.text tf.char).1).2
        ((arg_range_at tf.text tf.char).2 - (arg_range_at tf.text tf.char).1)).2)
      (byteLen new + (arg_range_at tf.text tf.char).1) = true
    rw [hs1]
    show isBoundary (P ++ new ++ (splitAtByte (M ++ S)
      ((arg_range_at tf.text tf.char).2 - (arg_range_at tf.text tf.char).1)).2)
      (byteLen new + (arg_range_at tf.text tf.char).1) = true
    rw [hs2]
    show isBoundary ((P ++ new) ++ S) (byteLen new + (arg_range_at tf.text tf.char).1) = true
    exact isBoundary_of_byteLen_eq _ _ _ (by simp [hP]; omega)
  · intro a b hab
    have hab' : (none : Option (Nat × Nat)) = some (a, b) := hab
    cases hab'

theorem push_char_inv (tf : TextField) (ch : Char) (h : Inv tf) :
    Inv (tf.push_char ch).2 := by
  have hts := take_selected_inv tf h
  obtain ⟨h1, _⟩ := hts
  obtain ⟨hjoin, hlen⟩ := splitAtByte_of_isBoundary _ _ h1
  simp only [TextField.push_char]
  constructor
  · show isBoundary ((splitAtByte tf.take_selected.2.text tf.take_selected.2.char).1 ++
      ch :: (splitAtByte tf.take_selected.2.text tf.take_selected.2.char).2)
      (tf.take_selected.2.char + utf8Len ch) = true
    have heq : (splitAtByte tf.take_selected.2.text tf.take_selected.2.char).1 ++
        ch :: (splitAtByte tf.take_selected.2.text tf.take_selected.2.char).2 =
        ((splitAtByte tf.take_selected.2.text tf.take_selected.2.char).1 ++ [ch]) ++
        (splitAtByte tf.take_selected.2.text tf.take_selected.2.char).2 := by simp
    rw [heq]
    exact isBoundary_of_byteLen_eq _ _ _ (by simp [hlen])
  · intro a b hab
    have hab' : tf.take_selected.2.select = some (a, b) := hab
    rw [take_selected_select_none tf] at hab'
    cases hab'

theorem paste_passthrough_inv (tf : TextField) (clip : List Char) (h : Inv tf) :
    Inv (tf.paste_passthrough clip).2 := by
  simp only [TextField.paste_passthrough]
  by_cases hnl : clip.contains '\n'
  · rw [if_pos hnl]
    exact h
  · rw [if_neg hnl]
    have hts := take_selected_inv tf h
    obtain ⟨h1, _⟩ := hts
    obtain ⟨hjoin, hlen⟩ := splitAtByte_of_isBoundary _ _ h1
    constructor
    · show isBoundary ((splitAtByte tf.take_selected.2.text tf.take_selected.2.char).1 ++ clip ++
        (splitAtByte tf.take_selected.2.text tf.take_selected.2.char).2)
        (tf.take_selected.2.char + byteLen clip) = true
      exact isBoundary_of_byteLen_eq _ _ _ (by simp [hlen])
    · intro a b hab
      have hab' : tf.take_selected.2.select = some (a, b) := hab
      rw [take_selected_select_none tf] at hab'
      cases hab'

theorem del_inv (tf : TextField) (h : Inv tf) : Inv tf.del.2 := by
  have hts := take_selected_inv tf h
  cases hclip : tf.take_selected.1 with
  | some s =>
    simp only [TextField.del, hclip]
    exact hts
  | none =>
    simp only [TextField.del, hclip]
    by_cases hcond : tf.take_selected.2.char < byteLen tf.take_selected.2.text ∧
        tf.take_selected.2.text ≠ []
    · rw [if_pos hcond]
      obtain ⟨h1, _⟩ := hts
      obtain ⟨hjoin, hlen⟩ := splitAtByte_of_isBoundary _ _ h1
      constructor
      · show isBoundary ((splitAtByte tf.take_selected.2.text tf.take_selected.2.char).1 ++
          (splitAtByte tf.take_selected.2.text tf.take_selected.2.char).2.drop 1)
          tf.take_selected.2.char = true
        exact isBoundary_of_byteLen_eq _ _ _ hlen.symm
      · intro a b hab
        have hab' : tf.take_selected.2.select = some (a, b) := hab
        rw [take_selected_select_none tf] at hab'
        cases hab'
    · rw [if_neg hcond]
      exact hts

theorem backspace_inv (tf : TextField) (h : Inv tf) : Inv tf.backspace.2 := by
  have hts := take_selected_inv tf h
  cases hclip : tf.take_selected.1 with
  | some s =>
    simp only [TextField.backspace, hclip]
    exact hts
  | none =>
    simp only [TextField.backspace, hclip]
    by_cases hcond : tf.take_selected.2.char > 0 ∧ tf.take_selected.2.text ≠ []
    · rw [if_pos hcond]
      have hpc := prev_char_inv _ hts
      obtain ⟨h1, _⟩ := hpc
      obtain ⟨hjoin, hlen⟩ := splitAtByte_of_isBoundary _ _ h1
      constructor
      · show isBoundary
          ((splitAtByte tf.take_selected.2.prev_char.2.text tf.take_selected.2.prev_char.2.char).1 ++
            (splitAtByte tf.take_selected.2.prev_char.2.text
              tf.take_selected.2.prev_char.2.char).2.drop 1)
          tf.take_selected.2.prev_char.2.char = true
        exact isBoundary_of_byteLen_eq _ _ _ hlen.symm
      · intro a b hab
        have hab' : tf.take_selected.2.prev_char.2.select = some (a, b) := hab
        rw [(prev_char_frame _).2, take_selected_select_none tf] at hab'
        cases hab'
    · rw [if_neg hcond]
      exact hts

theorem go_left_inv (tf : TextField) (h : Inv tf) : Inv tf.go_left.2 := by
  simp only [TextField.go_left]
  exact prev_char_inv _ (select_drop_inv _ h)

theorem go_right_inv (tf : TextField) (h : Inv tf) : Inv tf.go_right.2 := by
  simp only [TextField.go_right]
  exact next_char_inv _ (select_drop_inv _ h)

theorem select_left_inv (tf : TextField) (h : Inv tf) : Inv tf.select_left.2 := by
  simp only [TextField.select_left]
  exact push_select_inv _ (prev_char_inv _ (init_select_inv _ h))

theorem select_right_inv (tf : TextField) (h : Inv tf) : Inv tf.select_right.2 := by
  simp only [TextField.select_right]
  exact push_select_inv _ (next_char_inv _ (init_select_inv _ h))

theorem jump_left_inv (tf : TextField) (h : Inv tf) : Inv tf.jump_left.2 := by
  simp only [TextField.jump_left]
  exact jump_left_move_inv _ (prev_char_inv _ (select_drop_inv _ h))

theorem jump_right_inv (tf : TextField) (h : Inv tf) : Inv tf.jump_right.2 := by
  simp only [TextField.jump_right]
  exact jump_right_move_inv _ (next_char_inv _ (select_drop_inv _ h))

theorem select_jump_left_inv (tf : TextField) (h : Inv tf) : Inv tf.select_jump_left.2 := by
  simp only [TextField.select_jump_left]
  exact push_select_inv _ (jump_left_move_inv _ (prev_char_inv _ (init_select_inv _ h)))

theorem select_jump_right_inv (tf : TextField) (h : Inv tf) : Inv tf.select_jump_right.2 := by
  simp only [TextField.select_jump_right]
  exact push_select_inv _ (jump_right_move_inv _ (next_char_inv _ (init_select_inv _ h)))

/-! ### The public operations quantified over in claim C1 -/

/-- Public `TextField` operations of the categories listed by the claim:
movement, selection, jumps, insertion, deletion, clipboard, token
replacement. -/
inductive Op where
  | pushChar (c : Char)
  | del
  | backspace
  | goLeft
  | goRight
  | selLeft
  | selRight
  | jumpLeft
  | jumpRight
  | selJumpLeft
  | selJumpRight
  | home
  | endKey
  | selAll
  | selDrop
  | selToken
  | copyOp
  | cutOp
  | paste (clip : List Char)
  | replaceTok (new : List Char)
deriving DecidableEq, Repr

/-- State reached after one public operation (`copy` reads without
mutating). -/
def applyOp (tf : TextField) : Op → TextField
  | .pushChar c => (tf.push_char c).2
  | .del => tf.del.2
  | .backspace => tf.backspace.2
  | .goLeft => tf.go_left.2
  | .goRight => tf.go_right.2
  | .selLeft => tf.select_left.2
  | .selRight => tf.select_right.2
  | .jumpLeft => tf.jump_left.2
  | .jumpRight => tf.jump_right.2
  | .selJumpLeft => tf.select_jump_left.2
  | .selJumpRight => tf.select_jump_right.2
  | .home => tf.start_of_line.2
  | .endKey => tf.end_of_line.2
  | .selAll => tf.select_all.2
  | .selDrop => tf.select_drop.2
  | .selToken => tf.select_token_at_cursor.2
  | .copyOp => tf
  | .cutOp => tf.cut.2
  | .paste clip => (tf.paste_passthrough clip).2
  | .replaceTok new => tf.replace_token new

/-- State reached after a sequence of public operations. -/
def applyOps (tf : TextField) (ops : List Op) : TextField :=
  ops.foldl applyOp tf

theorem applyOp_inv (tf : TextField) (op : Op) (h : Inv tf) : Inv (applyOp tf op) := by
  cases op with
  | pushChar c => exact push_char_inv tf c h
  | del => exact del_inv tf h
  | backspace => exact backspace_inv tf h
  | goLeft => exact go_left_inv tf h
  | goRight => exact go_right_inv tf h
  | selLeft => exact select_left_inv tf h
  | selRight => exact select_right_inv tf h
  | jumpLeft => exact jump_left_inv tf h
  | jumpRight => exact jump_right_inv tf h
  | selJumpLeft => exact select_jump_left_inv tf h
  | selJumpRight => exact select_jump_right_inv tf h
  | home => exact start_of_line_inv tf h
  | endKey => exact end_of_line_inv tf h
  | selAll => exact select_all_inv tf h
  | selDrop => exact select_drop_inv tf h
  | selToken => exact select_token_at_cursor_inv tf h
  | copyOp => exact h
  | cutOp => exact take_selected_inv tf h
  | paste clip => exact paste_passthrough_inv tf clip h
  | replaceTok new => exact replace_token_inv tf new h

theorem applyOps_inv (tf : TextField) (ops : List Op) (h : Inv tf) :
    Inv (applyOps tf ops) := by
  induction ops generalizing tf with
  | nil => exact h
  | cons op rest ih => exact ih (applyOp tf op) (applyOp_inv tf op h)

theorem new_inv (s : List Char) : Inv (TextField.new s) := by
  refine ⟨isBoundary_byteLen s, ?_⟩
  intro a b hab
  simp [TextField.new] at hab

/-- C1: after any sequence of public TextField operations (movement,
selection, jumps, insertion, deletion, clipboard, token replacement) applied
to a buffer built from any string, the cursor and, when present, both
selection endpoints are character-boundary byte offsets between 0 and the
text's byte length inclusive. -/
theorem c1_boundary_invariant (ops : List Op) (s : List Char) :
    (isBoundary (applyOps (TextField.new s) ops).text
        (applyOps (TextField.new s) ops).char = true ∧
      (applyOps (TextField.new s) ops).char ≤
        byteLen (applyOps (TextField.new s) ops).text) ∧
    ∀ a b, (applyOps (TextField.new s) ops).select = some (a, b) →
      isBoundary (applyOps (TextField.new s) ops).text a = true ∧
      a ≤ byteLen (applyOps (TextField.new s) ops).text ∧
      isBoundary (applyOps (TextField.new s) ops).text b = true ∧
      b ≤ byteLen (applyOps (TextField.new s) ops).text := by
  obtain ⟨h1, h2⟩ := applyOps_inv (TextField.new s) ops (new_inv s)
  refine ⟨⟨h1, isBoundary_le _ _ h1⟩, ?_⟩
  intro a b hab
  obtain ⟨ha, hb⟩ := h2 a b hab
  exact ⟨ha, isBoundary_le _ _ ha, hb, isBoundary_le _ _ hb⟩

/-- Concrete instance of C1 with a 4-byte emoji: `select_left` from the end of
`"a🦀"` produces the unnormalized selection `(5, 1)`, both on boundaries. -/
theorem c1_boundary_invariant_witness :
    (applyOps (TextField.new ['a', '🦀']) [Op.selLeft]).select = some (5, 1) ∧
    isBoundary (applyOps (TextField.new ['a', '🦀']) [Op.selLeft]).text 5 = true ∧
    5 ≤ byteLen (applyOps (TextField.new ['a', '🦀']) [Op.selLeft]).text :=
  ⟨by decide, ((c1_boundary_invariant [Op.selLeft] ['a', '🦀']).2 5 1 (by decide)).1,
    ((c1_boundary_invariant [Op.selLeft] ['a', '🦀']).2 5 1 (by decide)).2.1⟩

/-! ## Claim C8: the Status order and its max-combine -/

/-- C8: Status is totally ordered with Skipped < UpdatedCursor < Updated, and
the Add operation yields the maximum, hence is commutative, associative,
idempotent, with Skipped as identity. -/
theorem c8_status_add_is_max :
    (Status.le .Skipped .UpdatedCursor = true ∧ Status.le .UpdatedCursor .Skipped = false ∧
      Status.le .UpdatedCursor .Updated = true ∧ Status.le .Updated .UpdatedCursor = false) ∧
    (∀ a b : Status, Status.le a b = true ∨ Status.le b a = true) ∧
    (∀ a b : Status, Status.le a b = true → Status.le b a = true → a = b) ∧
    (∀ a b c : Status, Status.le a b = true → Status.le b c = true →
      Status.le a c = true) ∧
    (∀ a b : Status, (a.add b = a ∨ a.add b = b) ∧
      Status.le a (a.add b) = true ∧ Status.le b (a.add b) = true) ∧
    (∀ a b : Status, a.add b = b.add a) ∧
    (∀ a b c : Status, (a.add b).add c = a.add (b.add c)) ∧
    (∀ a : Status, a.add a = a ∧ Status.add .Skipped a = a ∧ a.add .Skipped = a) := by
  decide

/-- Concrete use of the order facts of C8: transitivity applied at the three
variants gives Skipped ≤ Updated. -/
theorem c8_status_add_is_max_witness : Status.le .Skipped .Updated = true :=
  c8_status_add_is_max.2.2.2.1 .Skipped .UpdatedCursor .Updated (by decide) (by decide)

/-! ## Claim C6: boundary no-ops -/

/-- C6 (amended): when no selection is active, go_left at cursor 0, go_right
at cursor equal to the byte length, and del on the empty buffer each return
Skipped and leave the state unchanged. -/
theorem c6_boundary_noops (tf : TextField) (hsel : tf.select = none) :
    (tf.char = 0 → tf.go_left = (.Skipped, tf)) ∧
    (tf.char = byteLen tf.text → tf.go_right = (.Skipped, tf)) ∧
    (tf.text = [] → tf.del = (.Skipped, tf)) := by
  refine ⟨?_, ?_, ?_⟩
  · intro h0
    simp only [TextField.go_left, TextField.select_drop, hsel, TextField.prev_char, h0,
      splitAtByte_zero, List.getLast?_nil]
    rfl
  · intro hL
    simp only [TextField.go_right, TextField.select_drop, hsel, TextField.next_char, hL,
      splitAtByte_byteLen]
    rfl
  · intro htext
    simp only [TextField.del, TextField.take_selected, hsel]
    rw [if_neg (by simp [htext])]

/-- Concrete instance of the amended C6 on the buffer `"a"`. -/
theorem c6_boundary_noops_witness :
    TextField.go_left ⟨['a'], 0, none⟩ = (.Skipped, ⟨['a'], 0, none⟩) :=
  (c6_boundary_noops ⟨['a'], 0, none⟩ rfl).1 rfl

/-- C6 counterexample: go_left at cursor 0 with an active selection drops the
selection and returns UpdatedCursor, so the unconditional claim fails. -/
theorem c6_counterexample :
    TextField.go_left ⟨['a'], 0, some (1, 0)⟩ = (.UpdatedCursor, ⟨['a'], 0, none⟩) ∧
    TextField.go_left ⟨['a'], 0, some (1, 0)⟩ ≠ (.Skipped, ⟨['a'], 0, some (1, 0)⟩) := by
  decide

/-! ## Claim C10: a newline can enter the buffer through push_char and map -/

/-- Abstract key codes consumed by `TextField::map`; the key-event type itself
(crossterm) is external to this repository, only the variants the mapper
matches on are modelled. -/
inductive KeyCode where
  | ch (c : Char)
  | delKey
  | backspaceKey
  | home
  | endKey
  | left
  | right
  | other
deriving DecidableEq, Repr

/-- Modifier bitset restricted to the two bits the mapper reads. -/
structure Mods where
  shift : Bool
  ctrl : Bool
deriving DecidableEq, Repr

/-- Models the private `TextField::move_left` (status of the ctrl jump is
aggregated). -/
def TextField.move_left (tf : TextField) (mods : Mods) : Status × TextField :=
  let r1 := if mods.shift then tf.init_select else tf.select_drop
  let r2 := r1.2.prev_char
  let s2 := r1.1.add r2.1
  let r3 := if mods.ctrl then r2.2.jump_left_move else (.Skipped, r2.2)
  let s3 := if mods.ctrl then s2.add r3.1 else s2
  let r4 := if mods.shift then r3.2.push_select else (.Skipped, r3.2)
  let s4 := if mods.shift then s3.add r4.1 else s3
  (s4, r4.2)

/-- Models the private `TextField::move_right`; in the source the status of
the ctrl jump is discarded, which this model reproduces. -/
def TextField.move_right (tf : TextField) (mods : Mods) : Status × TextField :=
  let r1 := if mods.shift then tf.init_select else tf.select_drop
  let r2 := r1.2.next_char
  let s2 := r1.1.add r2.1
  let r3 := if mods.ctrl then r2.2.jump_right_move else (.Skipped, r2.2)
  let r4 := if mods.shift then r3.2.push_select else (.Skipped, r3.2)
  let s4 := if mods.shift then s2.add r4.1 else s2
  (s4, r4.2)

/-- Models `TextField::map`: `none` means the key is not mapped at all.  The
guard of the first arm is `modifiers == CONTROL`, i.e. exactly the control
bit; the guard of the second is `!modifiers.contains(CONTROL)`. -/
def TextField.map (tf : TextField) (code : KeyCode) (mods : Mods) :
    Option Status × TextField :=
  match code with
  | .ch c =>
    if (c = 'a' ∨ c = 'A') ∧ mods.ctrl = true ∧ mods.shift = false then
      let r := tf.select_all
      (some r.1, r.2)
    else if mods.ctrl = false then
      let r := tf.push_char c
      (some r.1, r.2)
    else (none, tf)
  | .delKey => let r := tf.del; (some r.1, r.2)
  | .backspaceKey => let r := tf.backspace; (some r.1, r.2)
  | .home => let r := tf.start_of_line; (some r.1, r.2)
  | .endKey => let r := tf.end_of_line; (some r.1, r.2)
  | .left => let r := tf.move_left mods; (some r.1, r.2)
  | .right => let r := tf.move_right mods; (some r.1, r.2)
  | .other => (none, tf)

/-- C10: push_char('\n') unconditionally inserts the newline into the text
and returns Updated, and the mapper reaches it for a Char('\n') event without
the control modifier; by contrast paste_passthrough rejects the same
character, so only the paste path guards the single-line property. -/
theorem c10_newline_injectable (tf : TextField) :
    (tf.push_char '\n').1 = .Updated ∧
    '\n' ∈ (tf.push_char '\n').2.text ∧
    tf.map (.ch '\n') ⟨false, false⟩ = (some (tf.push_char '\n').1, (tf.push_char '\n').2) ∧
    tf.paste_passthrough ['\n'] = (.Skipped, tf) := by
  refine ⟨rfl, ?_, ?_, ?_⟩
  · simp only [TextField.push_char]
    simp [List.mem_append]
  · simp only [TextField.map]
    rw [if_neg (by simp)]
    simp
  · simp only [TextField.paste_passthrough]
    rw [if_pos (by decide)]

/-! ## Claim C9: char-index-to-byte-offset conversion (src/src/utils/mod.rs) -/

/-- Models the private `prev_char_bytes_end`: the byte offset immediately
after the `idx`-th character (`idx = 0` maps to byte 0); `none` models the
panic on an index beyond the character count. -/
def prev_char_bytes_end (t : List Char) (idx : Nat) : Option Nat :=
  if idx = 0 then some 0
  else
    match (charIndices t)[idx - 1]? with
    | some p => some (p.1 + utf8Len p.2)
    | none => none

/-- Models the checked `maybe_prev_char_bytes_end`. -/
def maybe_prev_char_bytes_end (t : List Char) (idx : Nat) : Option Nat :=
  if idx = 0 then some idx
  else ((charIndices t)[idx - 1]?).map fun p => p.1 + utf8Len p.2

theorem charIndicesFrom_getElem (t : List Char) (pos i : Nat) :
    (charIndicesFrom pos t)[i]? =
      ((t.drop i).head?).map fun c => (pos + byteLen (t.take i), c) := by
  induction t generalizing pos i with
  | nil => simp [charIndicesFrom]
  | cons c rest ih =>
    cases i with
    | zero => simp [charIndicesFrom]
    | succ i =>
      simp only [charIndicesFrom, List.getElem?_cons_succ, List.drop_succ_cons,
        List.take_succ_cons, byteLen_cons]
      rw [ih]
      simp [Nat.add_assoc]

theorem byteLen_take_succ (t : List Char) (k : Nat) (c : Char)
    (h : (t.drop k).head? = some c) :
    byteLen (t.take (k + 1)) = byteLen (t.take k) + utf8Len c := by
  induction t generalizing k with
  | nil => simp at h
  | cons a rest ih =>
    cases k with
    | zero =>
      simp at h
      subst h
      simp
    | succ k =>
      simp only [List.drop_succ_cons] at h
      simp only [List.take_succ_cons, byteLen_cons]
      rw [ih k h]
      omega

/-- C9: the unchecked conversion returns the byte offset after the idx-th
character whenever idx does not exceed the character count, diverges (modelled
as none) exactly when it does, and the checked variant agrees with it
pointwise. -/
theorem c9_prev_char_bytes_end (t : List Char) (idx : Nat) :
    (idx ≤ t.length → prev_char_bytes_end t idx = some (byteLen (t.take idx))) ∧
    (t.length < idx → prev_char_bytes_end t idx = none) ∧
    maybe_prev_char_bytes_end t idx = prev_char_bytes_end t idx := by
  refine ⟨?_, ?_, ?_⟩
  · intro hle
    cases idx with
    | zero => simp [prev_char_bytes_end]
    | succ k =>
      have hk : k < t.length := by omega
      simp only [prev_char_bytes_end]
      rw [if_neg (by omega)]
      rw [show k + 1 - 1 = k from rfl, charIndices, charIndicesFrom_getElem]
      have hne : t.drop k ≠ [] := by
        intro hnil
        have hlen2 := List.length_drop k t
        rw [hnil] at hlen2
        simp at hlen2
        omega
      obtain ⟨c, r, hd⟩ : ∃ c r, t.drop k = c :: r := by
        cases hd : t.drop k with
        | nil => exact absurd hd hne
        | cons c r => exact ⟨c, r, rfl⟩
      rw [hd]
      rw [byteLen_take_succ t k c (by rw [hd]; rfl)]
      simp
  · intro hgt
    cases idx with
    | zero => omega
    | succ k =>
      simp only [prev_char_bytes_end]
      rw [if_neg (by omega)]
      rw [show k + 1 - 1 = k from rfl, charIndices, charIndicesFrom_getElem]
      have hnil : t.drop k = [] := by
        apply List.drop_eq_nil_of_le
        omega
      rw [hnil]
      rfl
  · cases idx with
    | zero => rfl
    | succ k =>
      simp only [prev_char_bytes_end, maybe_prev_char_bytes_end]
      rw [if_neg (by omega), if_neg (by omega)]
      rw [show k + 1 - 1 = k from rfl]
      cases hg : (charIndices t)[k]? with
      | none => rfl
      | some p => rfl

/-- Concrete instance of C9 on `"a🦀"`: the byte offset after the second
character is 5. -/
theorem c9_prev_char_bytes_end_witness :
    2 ≤ (['a', '🦀'] : List Char).length ∧
    prev_char_bytes_end ['a', '🦀'] 2 = some (byteLen (['a', '🦀'].take 2)) :=
  ⟨by decide, (c9_prev_char_bytes_end ['a', '🦀'] 2).1 (by decide)⟩

/-! ## Claims C2 and C7: clipboard behaviour -/

theorem take_selected_none_sel (tf : TextField) (h : tf.select = none) :
    tf.take_selected = (none, tf) := by
  simp [TextField.take_selected, h]

theorem take_selected_empty_sel (tf : TextField) (a b : Nat)
    (hs : tf.select = some (a, b)) (heq : a = b) :
    tf.take_selected = (none, { tf with select := none }) := by
  subst heq
  simp [TextField.take_selected, hs]

theorem take_selected_some_sel (tf : TextField) (a b : Nat)
    (hs : tf.select = some (a, b)) (hne : a ≠ b) :
    tf.take_selected =
      (some (splitAtByte (splitAtByte tf.text (min a b)).2 (max a b - min a b)).1,
        { text := (splitAtByte tf.text (min a b)).1 ++
            (splitAtByte (splitAtByte tf.text (min a b)).2 (max a b - min a b)).2,
          char := min a b, select := none }) := by
  have hf : (if a > b then b else a) = min a b := by split <;> omega
  have ht : (if a > b then a else b) = max a b := by split <;> omega
  simp only [TextField.take_selected, hs, hf, ht]
  rw [if_neg (by omega)]

/-- C2: paste_passthrough rejects clips containing a newline, leaving text,
cursor, and selection unchanged; otherwise it removes the selected bytes when
a non-empty selection exists, inserts the clip at the resulting cursor,
advances the cursor by the clip's byte length, clears the selection, and
returns Updated.  The three cursor/text cases are: no selection, an empty
selection, and a non-empty selection (normalized min/max). -/
theorem c2_paste_passthrough (tf : TextField) (clip : List Char) :
    (clip.contains '\n' = true → tf.paste_passthrough clip = (.Skipped, tf)) ∧
    (clip.contains '\n' = false →
      (tf.paste_passthrough clip).1 = .Updated ∧
      (tf.paste_passthrough clip).2.select = none) ∧
    (clip.contains '\n' = false → tf.select = none →
      (tf.paste_passthrough clip).2.text =
        (splitAtByte tf.text tf.char).1 ++ clip ++ (splitAtByte tf.text tf.char).2 ∧
      (tf.paste_passthrough clip).2.char = tf.char + byteLen clip) ∧
    (∀ a b, clip.contains '\n' = false → tf.select = some (a, b) → a = b →
      (tf.paste_passthrough clip).2.text =
        (splitAtByte tf.text tf.char).1 ++ clip ++ (splitAtByte tf.text tf.char).2 ∧
      (tf.paste_passthrough clip).2.char = tf.char + byteLen clip) ∧
    (∀ a b, clip.contains '\n' = false → tf.select = some (a, b) → a ≠ b →
      isBoundary tf.text (min a b) = true → isBoundary tf.text (max a b) = true →
      (tf.paste_passthrough clip).2.text =
        (splitAtByte tf.text (min a b)).1 ++ clip ++
          (splitAtByte (splitAtByte tf.text (min a b)).2 (max a b - min a b)).2 ∧
      (tf.paste_passthrough clip).2.char = min a b + byteLen clip) := by
  refine ⟨?_, ?_, ?_, ?_, ?_⟩
  · intro h
    simp only [TextField.paste_passthrough]
    rw [if_pos h]
  · intro h
    simp only [TextField.paste_passthrough]
    rw [if_neg (by rw [h]; simp)]
    exact ⟨rfl, take_selected_select_none tf⟩
  · intro h hsel
    simp only [TextField.paste_passthrough]
    rw [if_neg (by rw [h]; simp), take_selected_none_sel tf hsel]
    exact ⟨rfl, rfl⟩
  · intro a b h hsel heq
    simp only [TextField.paste_passthrough]
    rw [if_neg (by rw [h]; simp), take_selected_empty_sel tf a b hsel heq]
    exact ⟨rfl, rfl⟩
  · intro a b h hsel hne hbmin hbmax
    obtain ⟨P, M, S, hdec, hP, hM, hs1, hs2⟩ :=
      splice_decomp tf.text (min a b) (max a b) hbmin hbmax (by omega)
    simp only [TextField.paste_passthrough]
    rw [if_neg (by rw [h]; simp), take_selected_some_sel tf a b hsel hne]
    have htext : splitAtByte
          ((splitAtByte tf.text (min a b)).1 ++
            (splitAtByte (splitAtByte tf.text (min a b)).2 (max a b - min a b)).2)
          (min a b) =
        ((splitAtByte tf.text (min a b)).1,
          (splitAtByte (splitAtByte tf.text (min a b)).2 (max a b - min a b)).2) := by
      rw [hs1]
      show splitAtByte (P ++ (splitAtByte (M ++ S) (max a b - min a b)).2) (min a b) =
        (P, (splitAtByte (M ++ S) (max a b - min a b)).2)
      rw [hs2]
      show splitAtByte (P ++ S) (min a b) = (P, S)
      rw [← hP, splitAtByte_append]
    refine ⟨?_, rfl⟩
    show (splitAtByte ((splitAtByte tf.text (min a b)).1 ++
        (splitAtByte (splitAtByte tf.text (min a b)).2 (max a b - min a b)).2) (min a b)).1 ++
        clip ++
        (splitAtByte ((splitAtByte tf.text (min a b)).1 ++
          (splitAtByte (splitAtByte tf.text (min a b)).2 (max a b - min a b)).2) (min a b)).2 =
        (splitAtByte tf.text (min a b)).1 ++ clip ++
          (splitAtByte (splitAtByte tf.text (min a b)).2 (max a b - min a b)).2
    rw [htext]

/-- Concrete instance of C2: pasting "x" into "ab" at cursor 1 without a
selection. -/
theorem c2_paste_passthrough_witness :
    (TextField.paste_passthrough ⟨['a', 'b'], 1, none⟩ ['x']).2.text =
      (splitAtByte ['a', 'b'] 1).1 ++ ['x'] ++ (splitAtByte ['a', 'b'] 1).2 ∧
    (TextField.paste_passthrough ⟨['a', 'b'], 1, none⟩ ['x']).2.char = 1 + byteLen ['x'] :=
  (c2_paste_passthrough ⟨['a', 'b'], 1, none⟩ ['x']).2.2.1 (by decide) rfl

/-- C7 counterexample: on `"ab"` with selection `(0,1)` and cursor 1, copy
returns "a", clearing the selection keeps the cursor, and pasting "a" gives
"aab", not the original text — copy-then-paste duplicates the selection. -/
theorem c7_counterexample :
    TextField.copy ⟨['a', 'b'], 1, some (0, 1)⟩ = some ['a'] ∧
    TextField.select_drop ⟨['a', 'b'], 1, some (0, 1)⟩ =
      (.UpdatedCursor, ⟨['a', 'b'], 1, none⟩) ∧
    TextField.paste_passthrough ⟨['a', 'b'], 1, none⟩ ['a'] =
      (.Updated, ⟨['a', 'a', 'b'], 2, none⟩) ∧
    (['a', 'a', 'b'] : List Char) ≠ ['a', 'b'] := by
  decide

/-- C7 (amended): cut of a non-empty selection followed by pasting the cut
text reproduces the original text exactly, with the cursor at the upper
selection end and no selection, for any selected substring containing no
newline. -/
theorem c7_cut_paste_roundtrip (tf : TextField) (a b : Nat)
    (hs : tf.select = some (a, b)) (hne : a ≠ b)
    (hbmin : isBoundary tf.text (min a b) = true)
    (hbmax : isBoundary tf.text (max a b) = true)
    (hnl : (splitAtByte (splitAtByte tf.text (min a b)).2
        (max a b - min a b)).1.contains '\n' = false) :
    tf.cut.1 =
      some (splitAtByte (splitAtByte tf.text (min a b)).2 (max a b - min a b)).1 ∧
    tf.cut.2.paste_passthrough
        (splitAtByte (splitAtByte tf.text (min a b)).2 (max a b - min a b)).1 =
      (.Updated, { text := tf.text, char := max a b, select := none }) := by
  obtain ⟨P, M, S, hdec, hP, hM, hs1, hs2⟩ :=
    splice_decomp tf.text (min a b) (max a b) hbmin hbmax (by omega)
  have hcut := take_selected_some_sel tf a b hs hne
  constructor
  · show tf.take_selected.1 = _
    rw [hcut]
  · show TextField.paste_passthrough tf.take_selected.2 _ = _
    rw [hcut]
    simp only [TextField.paste_passthrough]
    rw [if_neg (by rw [hnl]; simp)]
    rw [take_selected_none_sel _ rfl]
    have htext : splitAtByte
          ((splitAtByte tf.text (min a b)).1 ++
            (splitAtByte (splitAtByte tf.text (min a b)).2 (max a b - min a b)).2)
          (min a b) =
        ((splitAtByte tf.text (min a b)).1,
          (splitAtByte (splitAtByte tf.text (min a b)).2 (max a b - min a b)).2) := by
      rw [hs1]
      show splitAtByte (P ++ (splitAtByte (M ++ S) (max a b - min a b)).2) (min a b) =
        (P, (splitAtByte (M ++ S) (max a b - min a b)).2)
      rw [hs2]
      show splitAtByte (P ++ S) (min a b) = (P, S)
      rw [← hP, splitAtByte_append]
    rw [htext]
    have h1 : (splitAtByte tf.text (min a b)).1 ++
        (splitAtByte (splitAtByte tf.text (min a b)).2 (max a b - min a b)).1 ++
        (splitAtByte (splitAtByte tf.text (min a b)).2 (max a b - min a b)).2 = tf.text := by
      rw [hs1]
      show P ++ (splitAtByte (M ++ S) (max a b - min a b)).1 ++
        (splitAtByte (M ++ S) (max a b - min a b)).2 = tf.text
      rw [hs2]
      show P ++ M ++ S = tf.text
      exact hdec.symm
    have h2 : min a b +
        byteLen (splitAtByte (splitAtByte tf.text (min a b)).2 (max a b - min a b)).1 =
        max a b := by
      rw [hs1]
      show min a b + byteLen (splitAtByte (M ++ S) (max a b - min a b)).1 = max a b
      rw [hs2]
      show min a b + byteLen M = max a b
      omega
    rw [h1, h2]

/-- Concrete instance of the amended C7: cut "ab" out of "abc" (selection
(0,2), cursor 2) and paste it back. -/
theorem c7_cut_paste_roundtrip_witness :
    (TextField.cut ⟨['a', 'b', 'c'], 2, some (0, 2)⟩).2.paste_passthrough
        (splitAtByte (splitAtByte ['a', 'b', 'c'] (min 0 2)).2 (max 0 2 - min 0 2)).1 =
      (.Updated, { text := ['a', 'b', 'c'], char := max 0 2, select := none }) :=
  (c7_cut_paste_roundtrip ⟨['a', 'b', 'c'], 2, some (0, 2)⟩ 0 2 rfl (by decide)
    (by decide) (by decide) (by decide)).2

/-! ## Claim C5: the token-boundary algorithm -/

theorem argRangeGo_nil_eq (idx pos ts : Nat) (last : Bool) :
    argRangeGo idx [] pos ts last =
      if idx < pos then (ts, pos)
      else if last = false ∧ ts ≤ idx then (ts, idx)
      else (idx, idx) := rfl

theorem argRangeGo_cons_eq (idx : Nat) (c : Char) (rest : List Char) (pos ts : Nat)
    (last : Bool) :
    argRangeGo idx (c :: rest) pos ts last =
      if rustIsWs c = false then
        argRangeGo idx rest (pos + utf8Len c) (if last then pos else ts) false
      else if idx ≤ pos then (if last then (idx, idx) else (ts, pos))
      else argRangeGo idx rest (pos + utf8Len c) ts true := rfl

/-- Flag value of `last_not_in_token` after scanning a run of characters. -/
def lastWs : List Char → Bool → Bool
  | [], b => b
  | c :: rest, _ => lastWs rest (rustIsWs c)

theorem lastWs_concat (q : List Char) (w : Char) (b : Bool) :
    lastWs (q ++ [w]) b = rustIsWs w := by
  induction q generalizing b with
  | nil => rfl
  | cons c q ih => exact ih (rustIsWs c)

/-- Scanning past a run that lies entirely before `idx` only moves the
position and updates the flag and token start. -/
theorem argRangeGo_skip (idx : Nat) (pre : List Char) :
    ∀ (rest : List Char) (pos ts : Nat) (last : Bool),
      pos + byteLen pre ≤ idx → ts ≤ idx → ts ≤ pos →
      ∃ ts2, argRangeGo idx (pre ++ rest) pos ts last =
          argRangeGo idx rest (pos + byteLen pre) ts2 (lastWs pre last) ∧
        ts2 ≤ idx ∧ ts2 ≤ pos + byteLen pre := by
  induction pre with
  | nil =>
    intro rest pos ts last h1 h2 h3
    exact ⟨ts, by simp [lastWs], h2, by simp; omega⟩
  | cons c pre ih =>
    intro rest pos ts last h1 h2 h3
    have hc := utf8Len_pos c
    simp only [byteLen_cons] at h1
    cases hws : rustIsWs c with
    | false =>
      rw [List.cons_append, argRangeGo_cons_eq, if_pos hws]
      have hts' : (if last then pos else ts) ≤ idx := by
        cases last <;> simp <;> omega
      have hts'' : (if last then pos else ts) ≤ pos + utf8Len c := by
        cases last <;> simp <;> omega
      obtain ⟨ts2, heq, hb1, hb2⟩ := ih rest (pos + utf8Len c) (if last then pos else ts)
        false (by omega) hts' hts''
      refine ⟨ts2, ?_, hb1, by simp; omega⟩
      rw [heq]
      have hpos : pos + utf8Len c + byteLen pre = pos + (utf8Len c + byteLen pre) := by omega
      have hlw : lastWs pre false = lastWs (c :: pre) last := by
        simp [lastWs, hws]
      rw [hpos, hlw]
      rfl
    | true =>
      rw [List.cons_append, argRangeGo_cons_eq, if_neg (by rw [hws]; simp),
        if_neg (by omega)]
      obtain ⟨ts2, heq, hb1, hb2⟩ := ih rest (pos + utf8Len c) ts true
        (by omega) h2 (by omega)
      refine ⟨ts2, ?_, hb1, by simp; omega⟩
      rw [heq]
      have hpos : pos + utf8Len c + byteLen pre = pos + (utf8Len c + byteLen pre) := by omega
      have hlw : lastWs pre true = lastWs (c :: pre) last := by
        simp [lastWs, hws]
      rw [hpos, hlw]
      rfl

/-- Scanning a non-whitespace run with the flag down leaves flag and token
start unchanged. -/
theorem argRangeGo_tok (idx : Nat) (tok : List Char)
    (htok : ∀ c ∈ tok, rustIsWs c = false) :
    ∀ (rest : List Char) (pos ts : Nat),
      argRangeGo idx (tok ++ rest) pos ts false =
        argRangeGo idx rest (pos + byteLen tok) ts false := by
  induction tok with
  | nil => intro rest pos ts; simp
  | cons c tok ih =>
    intro rest pos ts
    rw [List.cons_append, argRangeGo_cons_eq, if_pos (htok c (by simp))]
    have hred : (if (false : Bool) then pos else ts) = ts := rfl
    rw [hred, ih (fun d hd => htok d (by simp [hd])) rest (pos + utf8Len c) ts]
    have hpos : pos + utf8Len c + byteLen tok = pos + byteLen (c :: tok) := by
      simp; omega
    rw [hpos]

/-- After the interesting region, a whitespace-led or empty suffix closes the
range at the current position; `idx` may equal the position, so an index
sitting right on the whitespace after a token (or at the end of the text)
still closes the preceding token's range. -/
theorem argRangeGo_finish (idx ts pos : Nat) (suf : List Char)
    (hsuf : suf = [] ∨ ∃ w suf2, suf = w :: suf2 ∧ rustIsWs w = true)
    (hts : ts ≤ idx) (hlt : idx ≤ pos) :
    argRangeGo idx suf pos ts false = (ts, pos) := by
  rcases hsuf with rfl | ⟨w, suf2, rfl, hw⟩
  · by_cases hstrict : idx < pos
    · rw [argRangeGo_nil_eq, if_pos hstrict]
    · have hpe : idx = pos := by omega
      rw [argRangeGo_nil_eq, if_neg hstrict, if_pos ⟨rfl, hts⟩, hpe]
  · rw [argRangeGo_cons_eq, if_neg (by rw [hw]; simp), if_pos hlt]
    rfl

/-- C5 (amended, with idx within the text): the scenario on "a axxssd as"
with idx 2 returns the bytes of "axxssd" (2..8); for every maximal
non-whitespace token, every idx from the token's start up to and including
its end selects exactly the token's byte range — in particular an idx on the
single whitespace character right after a token, or at the end of a text
ending in that token, still selects the preceding token; an idx placed on a
whitespace character whose predecessor is also whitespace yields the empty
range idx..idx; and when idx equals the byte length of a text ending in a
non-whitespace run, the range extends to the text's end. -/
theorem c5_arg_range_at :
    (arg_range_at ['a', ' ', 'a', 'x', 'x', 's', 's', 'd', ' ', 'a', 's'] 2 = (2, 8)) ∧
    (∀ (P tok suf : List Char) (idx : Nat),
      tok ≠ [] → (∀ c ∈ tok, rustIsWs c = false) →
      (P = [] ∨ ∃ Q w, P = Q ++ [w] ∧ rustIsWs w = true) →
      (suf = [] ∨ ∃ w suf2, suf = w :: suf2 ∧ rustIsWs w = true) →
      byteLen P ≤ idx → idx ≤ byteLen P + byteLen tok →
      arg_range_at (P ++ (tok ++ suf)) idx = (byteLen P, byteLen P + byteLen tok)) ∧
    (∀ (Q : List Char) (w1 w2 : Char) (suf : List Char),
      rustIsWs w1 = true → rustIsWs w2 = true →
      arg_range_at (Q ++ w1 :: w2 :: suf) (byteLen Q + utf8Len w1) =
        (byteLen Q + utf8Len w1, byteLen Q + utf8Len w1)) ∧
    (∀ (Q : List Char) (c : Char), rustIsWs c = false →
      (arg_range_at (Q ++ [c]) (byteLen (Q ++ [c]))).2 = byteLen (Q ++ [c])) := by
  refine ⟨by decide, ?_, ?_, ?_⟩
  · intro P tok suf idx hne hnw hP hsuf hge hlt
    obtain ⟨t0, tok2, rfl⟩ : ∃ t0 tok2, tok = t0 :: tok2 := by
      cases tok with
      | nil => exact absurd rfl hne
      | cons a l => exact ⟨a, l, rfl⟩
    have ht0 : rustIsWs t0 = false := hnw t0 (by simp)
    rcases hP with rfl | ⟨Q, w, rfl, hw⟩
    · simp only [arg_range_at, List.nil_append, List.cons_append]
      rw [argRangeGo_cons_eq, if_pos ht0]
      have hred : (if (false : Bool) then (0 : Nat) else 0) = 0 := rfl
      rw [hred, argRangeGo_tok idx tok2 (fun d hd => hnw d (by simp [hd])) suf
        (0 + utf8Len t0) 0]
      rw [argRangeGo_finish idx 0 (0 + utf8Len t0 + byteLen tok2) suf hsuf (by omega)
        (by simp only [byteLen_nil, byteLen_cons] at hlt; omega)]
      simp only [Prod.mk.injEq, byteLen_nil, byteLen_cons, true_and]
      omega
    · simp only [arg_range_at]
      obtain ⟨ts2, heq, hb1, hb2⟩ := argRangeGo_skip idx (Q ++ [w]) ((t0 :: tok2) ++ suf)
        0 0 false (by simp only [byteLen_append] at hge ⊢; omega) (by omega) (le_refl 0)
      rw [heq, lastWs_concat, hw]
      rw [List.cons_append, argRangeGo_cons_eq, if_pos ht0]
      have hred : (if (true : Bool) then 0 + byteLen (Q ++ [w]) else ts2) =
        0 + byteLen (Q ++ [w]) := rfl
      rw [hred, argRangeGo_tok idx tok2 (fun d hd => hnw d (by simp [hd])) suf
        (0 + byteLen (Q ++ [w]) + utf8Len t0) (0 + byteLen (Q ++ [w]))]
      rw [argRangeGo_finish idx (0 + byteLen (Q ++ [w]))
        (0 + byteLen (Q ++ [w]) + utf8Len t0 + byteLen tok2) suf hsuf (by omega)
        (by simp only [byteLen_cons] at hlt; omega)]
      simp only [Prod.mk.injEq, byteLen_cons, true_and]
      omega
  · intro Q w1 w2 suf hw1 hw2
    have hsplit : Q ++ w1 :: w2 :: suf = (Q ++ [w1]) ++ (w2 :: suf) := by simp
    rw [hsplit]
    simp only [arg_range_at]
    obtain ⟨ts2, heq, hb1, hb2⟩ := argRangeGo_skip (byteLen Q + utf8Len w1) (Q ++ [w1])
      (w2 :: suf) 0 0 false
      (by simp only [byteLen_append, byteLen_cons, byteLen_nil]; omega)
      (by omega) (le_refl 0)
    rw [heq, lastWs_concat, hw1]
    rw [argRangeGo_cons_eq, if_neg (by rw [hw2]; simp),
      if_pos (by simp only [byteLen_append, byteLen_cons, byteLen_nil]; omega)]
    rfl
  · intro Q c hcws
    obtain ⟨ts2, heq, hb1, hb2⟩ := argRangeGo_skip (byteLen (Q ++ [c])) (Q ++ [c]) []
      0 0 false (by omega) (by omega) (le_refl 0)
    simp only [arg_range_at]
    rw [List.append_nil] at heq
    rw [heq, lastWs_concat, hcws]
    rw [argRangeGo_nil_eq, if_neg (by omega), if_pos ⟨rfl, hb1⟩]

/-- Concrete instances of C5 through the token theorem: on "a axxssd as" with
idx 2 the selected token is "axxssd", bytes 2..8; and on "ab cd" with idx 2 —
the space right after "ab" — the preceding token "ab" is selected, bytes
0..2 (the token-end adjacency rule). -/
theorem c5_arg_range_at_witness :
    (arg_range_at (['a', ' '] ++ (['a', 'x', 'x', 's', 's', 'd'] ++ [' ', 'a', 's'])) 2 =
      (byteLen ['a', ' '], byteLen ['a', ' '] + byteLen ['a', 'x', 'x', 's', 's', 'd'])) ∧
    (arg_range_at (([] : List Char) ++ (['a', 'b'] ++ [' ', 'c', 'd'])) 2 =
      (byteLen ([] : List Char), byteLen ([] : List Char) + byteLen ['a', 'b'])) :=
  ⟨c5_arg_range_at.2.1 ['a', ' '] ['a', 'x', 'x', 's', 's', 'd'] [' ', 'a', 's'] 2
    (by decide) (by decide) (Or.inr ⟨['a'], ' ', rfl, by decide⟩)
    (Or.inr ⟨' ', ['a', 's'], rfl, by decide⟩) (by decide) (by decide),
   c5_arg_range_at.2.1 [] ['a', 'b'] [' ', 'c', 'd'] 2
    (by decide) (by decide) (Or.inl rfl)
    (Or.inr ⟨' ', ['c', 'd'], rfl, by decide⟩) (by decide) (by decide)⟩

/-- C5 counterexample: with idx = 3 beyond the byte length of "ab" (a text
ending in a non-whitespace run), arg_range_at returns 0..3, whose end is not
the text's end — the claimed trailing-run rule fails for out-of-text idx. -/
theorem c5_counterexample :
    arg_range_at ['a', 'b'] 3 = (0, 3) ∧ byteLen ['a', 'b'] = 2 ∧
    (arg_range_at ['a', 'b'] 3).2 ≠ byteLen ['a', 'b'] := by
  decide

/-! ## Claim C4: the horizontal scroll offset -/

/-- Display width of a text under a width table `cw`: the sum of per-character
widths, characters with no width counting 0, as `UnicodeWidthStr::width`. -/
def listWidth (cw : Char → Option Nat) (t : List Char) : Nat :=
  (t.map fun c => (cw c).getD 0).sum

@[simp] theorem listWidth_nil (cw : Char → Option Nat) : listWidth cw [] = 0 := rfl

@[simp] theorem listWidth_cons (cw : Char → Option Nat) (c : Char) (t : List Char) :
    listWidth cw (c :: t) = (cw c).getD 0 + listWidth cw t := rfl

/-- Scan loop of `calculate_width_offset` over the char indices of the cursor
prefix; `w` is the running `cursor_prefix_w` and subtraction is saturating, a
character without width subtracting nothing. -/
def cwoScan (cw : Char → Option Nat) (max_width : Nat) :
    List (Nat × Char) → Nat → Nat → Nat
  | [], _, dflt => dflt
  | (off, ch) :: rest, w, dflt =>
    if max_width > w then off
    else cwoScan cw max_width rest (w - (cw ch).getD 0) dflt

/-- Models `TextField::calculate_width_offset`, parametric in the width table
`cw`; the unicode-width crate that supplies the table is external to the
repository, and every theorem below holds for an arbitrary table. -/
def calculate_width_offset (cw : Char → Option Nat) (tf : TextField) (max_width : Nat) :
    Nat :=
  if tf.char + 1 < max_width then 0
  else
    cwoScan cw max_width (charIndices (splitAtByte tf.text tf.char).1)
      (listWidth cw (splitAtByte tf.text tf.char).1 + 2) tf.char

/-- Modelled from the spec: a concrete display-width table standing in for the
unicode-width crate, which is external to this repository.  Per section 4.1 of
the spec, widths are 0, 1 or 2 columns by the Unicode East-Asian width tables
and control characters contribute nothing.  This instance assigns control
characters none, characters from U+1100 upward (covering the wide CJK and
emoji blocks used by the repository's tests, including U+1F980) 2 columns,
and every other character 1 column; it agrees with the real table on every
character appearing in the witnesses and counterexamples below. -/
def uw (c : Char) : Option Nat :=
  if c.toNat < 0x20 ∨ c.toNat = 0x7f then none
  else if 0x1100 ≤ c.toNat then some 2
  else some 1

theorem cwoScan_mem (cw : Char → Option Nat) (W : Nat) (l : List (Nat × Char))
    (w d : Nat) : cwoScan cw W l w d = d ∨ ∃ c, (cwoScan cw W l w d, c) ∈ l := by
  induction l generalizing w with
  | nil => exact Or.inl rfl
  | cons x rest ih =>
    obtain ⟨off, ch⟩ := x
    by_cases hgt : W > w
    · exact Or.inr ⟨ch, by simp [cwoScan, hgt]⟩
    · rcases ih (w - (cw ch).getD 0) with h | ⟨c, hc⟩
      · exact Or.inl (by simp [cwoScan, hgt, h])
      · refine Or.inr ⟨c, ?_⟩
        simp only [cwoScan, hgt, if_false]
        exact List.mem_cons_of_mem _ hc

/-- C4 (amended): the scroll offset is always a character-boundary byte index
at most the cursor; it is 0 whenever the byte-count fast path
`cursor + 1 < W` fires, and also whenever the display width of the cursor
prefix plus 2 is below `W`.  The byte fast path makes the claimed "0 exactly
when width + 2 < W" an over-statement; see the counterexample. -/
theorem c4_calculate_width_offset (cw : Char → Option Nat) (tf : TextField) (W : Nat)
    (h : isBoundary tf.text tf.char = true) :
    isBoundary tf.text (calculate_width_offset cw tf W) = true ∧
    calculate_width_offset cw tf W ≤ tf.char ∧
    (tf.char + 1 < W → calculate_width_offset cw tf W = 0) ∧
    (listWidth cw (splitAtByte tf.text tf.char).1 + 2 < W →
      calculate_width_offset cw tf W = 0) := by
  obtain ⟨hjoin, hlen⟩ := splitAtByte_of_isBoundary tf.text tf.char h
  by_cases hfast : tf.char + 1 < W
  · simp only [calculate_width_offset]
    rw [if_pos hfast]
    exact ⟨isBoundary_zero _, Nat.zero_le _, fun _ => rfl, fun _ => rfl⟩
  · simp only [calculate_width_offset]
    rw [if_neg hfast]
    have hbd : isBoundary tf.text
        (cwoScan cw W (charIndices (splitAtByte tf.text tf.char).1)
          (listWidth cw (splitAtByte tf.text tf.char).1 + 2) tf.char) = true ∧
        cwoScan cw W (charIndices (splitAtByte tf.text tf.char).1)
          (listWidth cw (splitAtByte tf.text tf.char).1 + 2) tf.char ≤ tf.char := by
      rcases cwoScan_mem cw W (charIndices (splitAtByte tf.text tf.char).1)
        (listWidth cw (splitAtByte tf.text tf.char).1 + 2) tf.char with heq | ⟨c, hc⟩
      · rw [heq]
        exact ⟨h, le_refl _⟩
      · obtain ⟨j, hj1, hj2, hj3⟩ := charIndicesFrom_mem _ 0 _ hc
        simp only [Nat.zero_add] at hj1
        constructor
        · rw [hj1, hjoin]
          exact isBoundary_append_left _ _ _ hj2
        · rw [hj1]
          omega
    refine ⟨hbd.1, hbd.2, fun hc => absurd hc hfast, ?_⟩
    intro hw
    cases hpre : (splitAtByte tf.text tf.char).1 with
    | nil =>
      rw [hpre] at hlen
      simp only [hpre, charIndices, charIndicesFrom, cwoScan]
      simpa using hlen.symm
    | cons c rest =>
      rw [hpre] at hw
      simp only [hpre, charIndices, charIndicesFrom, cwoScan]
      rw [if_pos (by omega)]

/-- Concrete instance of C4 on `"ab"` with the cursor at the end and 10
columns. -/
theorem c4_calculate_width_offset_witness :
    isBoundary ['a', 'b'] (calculate_width_offset uw ⟨['a', 'b'], 2, none⟩ 10) = true ∧
    calculate_width_offset uw ⟨['a', 'b'], 2, none⟩ 10 ≤ 2 :=
  ⟨(c4_calculate_width_offset uw ⟨['a', 'b'], 2, none⟩ 10 (by decide)).1,
    (c4_calculate_width_offset uw ⟨['a', 'b'], 2, none⟩ 10 (by decide)).2.1⟩

/-- C4 counterexample: on `"ab"` with cursor 2 and width budget 4 the offset
is 0 through the byte fast path although the prefix display width plus 2 is
not below the budget, refuting the claimed "0 exactly when width + 2 < W". -/
theorem c4_counterexample :
    calculate_width_offset uw ⟨['a', 'b'], 2, none⟩ 4 = 0 ∧
    ¬(listWidth uw (splitAtByte ['a', 'b'] 2).1 + 2 < 4) := by
  decide

/-! ## Claim C3: the width-budgeted line builder -/

/-- Output unit of the modelled backend: a plain print, a styled print, or a
run of blank padding cells. -/
inductive Seg (α : Type) where
  | plain (t : List Char)
  | styled (t : List Char) (st : α)
  | pad (n : Nat)
deriving DecidableEq, Repr

/-- Display width of one backend output unit. -/
def segWidth (cw : Char → Option Nat) : Seg α → Nat
  | .plain t => listWidth cw t
  | .styled t _ => listWidth cw t
  | .pad n => n

@[simp] theorem segWidth_plain (cw : Char → Option Nat) (t : List Char) :
    segWidth cw (Seg.plain t : Seg α) = listWidth cw t := rfl

@[simp] theorem segWidth_styled (cw : Char → Option Nat) (t : List Char) (st : α) :
    segWidth cw (Seg.styled t st) = listWidth cw t := rfl

@[simp] theorem segWidth_pad (cw : Char → Option Nat) (n : Nat) :
    segWidth cw (Seg.pad n : Seg α) = n := rfl

/-- Total display width of an output sequence. -/
def totalWidth (cw : Char → Option Nat) (l : List (Seg α)) : Nat :=
  (l.map (segWidth cw)).sum

@[simp] theorem totalWidth_nil (cw : Char → Option Nat) :
    totalWidth cw ([] : List (Seg α)) = 0 := rfl

@[simp] theorem totalWidth_append (cw : Char → Option Nat) (l1 l2 : List (Seg α)) :
    totalWidth cw (l1 ++ l2) = totalWidth cw l1 + totalWidth cw l2 := by
  simp [totalWidth]

@[simp] theorem totalWidth_single (cw : Char → Option Nat) (s : Seg α) :
    totalWidth cw [s] = segWidth cw s := by
  simp [totalWidth]

/-- Loop of `truncate_if_wider` (src/src/utils/mod.rs): accumulate the width;
on the first character that pushes it past the budget, return the prefix
before that character (`inl`), otherwise the total accumulated width
(`inr`). -/
def truncGo (cw : Char → Option Nat) (w : Nat) : List Char → Nat → List Char ⊕ Nat
  | [], cur => Sum.inr cur
  | c :: rest, cur =>
    if w < cur + (cw c).getD 0 then Sum.inl []
    else
      match truncGo cw w rest (cur + (cw c).getD 0) with
      | Sum.inl pre => Sum.inl (c :: pre)
      | Sum.inr tot => Sum.inr tot

/-- Models `truncate_if_wider`: `inl` is the Ok(truncated) case, `inr` the
Err(total width) case. -/
def truncate_if_wider (cw : Char → Option Nat) (t : List Char) (w : Nat) :
    List Char ⊕ Nat :=
  truncGo cw w t 0

theorem truncGo_inr (cw : Char → Option Nat) (w : Nat) (t : List Char) :
    ∀ (cur tot : Nat), truncGo cw w t cur = Sum.inr tot → cur ≤ w →
      tot = cur + listWidth cw t ∧ tot ≤ w := by
  induction t with
  | nil =>
    intro cur tot h hcur
    simp only [truncGo, Sum.inr.injEq] at h
    subst h
    simpa using hcur
  | cons c rest ih =>
    intro cur tot h hcur
    simp only [truncGo] at h
    by_cases hlt : w < cur + (cw c).getD 0
    · rw [if_pos hlt] at h
      cases h
    · rw [if_neg hlt] at h
      cases hrec : truncGo cw w rest (cur + (cw c).getD 0) with
      | inl pre => rw [hrec] at h; cases h
      | inr tot2 =>
        rw [hrec] at h
        simp only [Sum.inr.injEq] at h
        subst h
        obtain ⟨ha, hb⟩ := ih (cur + (cw c).getD 0) tot2 hrec (by omega)
        refine ⟨?_, hb⟩
        rw [ha, listWidth_cons]
        omega

theorem truncGo_inl (cw : Char → Option Nat) (w : Nat) (t : List Char) :
    ∀ (cur : Nat) (pre : List Char), truncGo cw w t cur = Sum.inl pre → cur ≤ w →
      cur + listWidth cw pre ≤ w ∧
      ((∀ c ∈ t, (cw c).getD 0 ≤ 1) → cur + listWidth cw pre = w) ∧
      (∀ c ∈ pre, c ∈ t) := by
  induction t with
  | nil => intro cur pre h hcur; simp [truncGo] at h
  | cons c rest ih =>
    intro cur pre h hcur
    simp only [truncGo] at h
    by_cases hlt : w < cur + (cw c).getD 0
    · rw [if_pos hlt] at h
      simp only [Sum.inl.injEq] at h
      subst h
      refine ⟨by simpa using hcur, ?_, by simp⟩
      intro h1
      have hcw := h1 c (by simp)
      simp only [listWidth_nil]
      omega
    · rw [if_neg hlt] at h
      cases hrec : truncGo cw w rest (cur + (cw c).getD 0) with
      | inr tot => rw [hrec] at h; cases h
      | inl pre2 =>
        rw [hrec] at h
        simp only [Sum.inl.injEq] at h
        subst h
        obtain ⟨ha, hb, hc2⟩ := ih (cur + (cw c).getD 0) pre2 hrec (by omega)
        refine ⟨?_, ?_, ?_⟩
        · rw [listWidth_cons]
          omega
        · intro h1
          have := hb fun d hd => h1 d (by simp [hd])
          rw [listWidth_cons]
          omega
        · intro d hd
          simp only [List.mem_cons] at hd
          rcases hd with rfl | hd
          · simp
          · simp [hc2 d hd]

/-- One builder push, models both `LineBuilder::push` and `push_styled`: on
truncation the prefix is printed and the remaining budget zeroed, otherwise
the whole text is printed and the budget reduced by its width. -/
def lb_push (cw : Char → Option Nat) (b : Nat × List (Seg α))
    (ins : List Char × Option α) : Nat × List (Seg α) :=
  match truncate_if_wider cw ins.1 b.1 with
  | Sum.inl pre =>
    (0, b.2 ++ [match ins.2 with
      | none => Seg.plain pre
      | some st => Seg.styled pre st])
  | Sum.inr wdt =>
    (b.1 - wdt, b.2 ++ [match ins.2 with
      | none => Seg.plain ins.1
      | some st => Seg.styled ins.1 st])

/-- Sequence of builder pushes. -/
def runPushes (cw : Char → Option Nat) (b : Nat × List (Seg α))
    (instrs : List (List Char × Option α)) : Nat × List (Seg α) :=
  instrs.foldl (lb_push cw) b

/-- Models the `Drop` impl of `LineBuilder`: pad the remaining budget if it is
not zero. -/
def lb_finish (b : Nat × List (Seg α)) : List (Seg α) :=
  if b.1 = 0 then b.2 else b.2 ++ [Seg.pad b.1]

theorem lb_push_width (cw : Char → Option Nat) (b : Nat × List (Seg α))
    (ins : List Char × Option α) :
    (lb_push cw b ins).1 + totalWidth cw (lb_push cw b ins).2 ≤
      b.1 + totalWidth cw b.2 ∧
    ((∀ c ∈ ins.1, (cw c).getD 0 ≤ 1) →
      (lb_push cw b ins).1 + totalWidth cw (lb_push cw b ins).2 =
        b.1 + totalWidth cw b.2) := by
  obtain ⟨txt, st⟩ := ins
  cases htr : truncate_if_wider cw txt b.1 with
  | inl pre =>
    obtain ⟨ha, hb, hmem⟩ := truncGo_inl cw b.1 txt 0 pre htr (Nat.zero_le _)
    simp only [Nat.zero_add] at ha hb
    constructor
    · cases st <;> simp [lb_push, htr] <;> omega
    · intro h1
      have heq := hb h1
      cases st <;> simp [lb_push, htr] <;> omega
  | inr wdt =>
    obtain ⟨ha, hb⟩ := truncGo_inr cw b.1 txt 0 wdt htr (Nat.zero_le _)
    simp only [Nat.zero_add] at ha
    constructor
    · cases st <;> simp [lb_push, htr] <;> omega
    · intro h1
      cases st <;> simp [lb_push, htr] <;> omega

theorem runPushes_width (cw : Char → Option Nat) (instrs : List (List Char × Option α)) :
    ∀ b : Nat × List (Seg α),
      (runPushes cw b instrs).1 + totalWidth cw (runPushes cw b instrs).2 ≤
        b.1 + totalWidth cw b.2 ∧
      ((∀ ins ∈ instrs, ∀ c ∈ ins.1, (cw c).getD 0 ≤ 1) →
        (runPushes cw b instrs).1 + totalWidth cw (runPushes cw b instrs).2 =
          b.1 + totalWidth cw b.2) := by
  induction instrs with
  | nil => intro b; exact ⟨le_refl _, fun _ => rfl⟩
  | cons ins rest ih =>
    intro b
    obtain ⟨hle, heq⟩ := lb_push_width cw b ins
    obtain ⟨hle2, heq2⟩ := ih (lb_push cw b ins)
    have hstep : runPushes cw b (ins :: rest) = runPushes cw (lb_push cw b ins) rest := rfl
    constructor
    · rw [hstep]
      exact le_trans hle2 hle
    · intro h1
      rw [hstep, heq2 fun i hi => h1 i (by simp [hi])]
      exact heq (h1 ins (by simp))

theorem totalWidth_lb_finish (cw : Char → Option Nat) (b : Nat × List (Seg α)) :
    totalWidth cw (lb_finish b) = totalWidth cw b.2 + b.1 := by
  simp only [lb_finish]
  by_cases h : b.1 = 0
  · rw [if_pos h, h]
    omega
  · rw [if_neg h]
    simp

/-- Width accounting for a full builder run from a fresh budget `W`. -/
theorem finish_run_width (cw : Char → Option Nat)
    (L : List (List Char × Option α)) (W : Nat) :
    totalWidth cw (lb_finish (runPushes cw (W, []) L)) ≤ W ∧
    ((∀ ins ∈ L, ∀ c ∈ ins.1, (cw c).getD 0 ≤ 1) →
      totalWidth cw (lb_finish (runPushes cw (W, []) L)) = W) := by
  obtain ⟨hle, heq⟩ := runPushes_width cw L (W, ([] : List (Seg α)))
  simp only [totalWidth_nil] at hle heq
  rw [totalWidth_lb_finish]
  constructor
  · omega
  · intro h1
    have := heq h1
    omega

/-- Byte-range slice `&text[a..b]`. -/
def sliceBytes (t : List Char) (a b : Nat) : List Char :=
  (splitAtByte (splitAtByte t a).2 (b - a)).1

/-- Byte-suffix slice `&text[a..]`. -/
def sliceFrom (t : List Char) (a : Nat) : List Char :=
  (splitAtByte t a).2

theorem mem_of_sliceBytes (t : List Char) (a b : Nat) (c : Char)
    (h : c ∈ sliceBytes t a b) : c ∈ t :=
  mem_of_splitAtByte_right t a c (mem_of_splitAtByte_left _ _ c h)

theorem mem_of_sliceFrom (t : List Char) (a : Nat) (c : Char)
    (h : c ∈ sliceFrom t a) : c ∈ t :=
  mem_of_splitAtByte_right t a c h

/-- Models `TextField::get_cursor_range`. -/
def TextField.get_cursor_range (tf : TextField) : Option (Nat × Nat) :=
  match (splitAtByte tf.text tf.char).2 with
  | c :: _ => some (tf.char, tf.char + utf8Len c)
  | [] => none

/-- Rust byte-range slice `&text[a..b]` including its panic: `none` unless
`a ≤ b` and both ends are char boundaries (a boundary is in particular at
most the byte length); a reversed or misaligned range aborts the program. -/
def sliceBytes? (t : List Char) (a b : Nat) : Option (List Char) :=
  if a ≤ b ∧ isBoundary t a = true ∧ isBoundary t b = true then
    some (sliceBytes t a b)
  else none

/-- Rust byte-suffix slice `&text[a..]` including its panic. -/
def sliceFrom? (t : List Char) (a : Nat) : Option (List Char) :=
  if isBoundary t a = true then some (sliceFrom t a) else none

theorem sliceBytes?_mem (t : List Char) (a b : Nat) (x : List Char)
    (h : sliceBytes? t a b = some x) : ∀ c ∈ x, c ∈ t := by
  intro c hc
  by_cases hcond : a ≤ b ∧ isBoundary t a = true ∧ isBoundary t b = true
  · simp only [sliceBytes?] at h
    rw [if_pos hcond] at h
    injection h with h
    subst h
    exact mem_of_sliceBytes t a b c hc
  · simp only [sliceBytes?] at h
    rw [if_neg hcond] at h
    cases h

theorem sliceFrom?_mem (t : List Char) (a : Nat) (x : List Char)
    (h : sliceFrom? t a = some x) : ∀ c ∈ x, c ∈ t := by
  intro c hc
  by_cases hcond : isBoundary t a = true
  · simp only [sliceFrom?] at h
    rw [if_pos hcond] at h
    injection h with h
    subst h
    exact mem_of_sliceFrom t a c hc
  · simp only [sliceFrom?] at h
    rw [if_neg hcond] at h
    cases h

theorem sliceBytes?_of_boundary (t : List Char) (a b : Nat) (hab : a ≤ b)
    (ha : isBoundary t a = true) (hb : isBoundary t b = true) :
    sliceBytes? t a b = some (sliceBytes t a b) := by
  simp only [sliceBytes?]
  rw [if_pos ⟨hab, ha, hb⟩]

theorem sliceFrom?_of_boundary (t : List Char) (a : Nat)
    (h : isBoundary t a = true) : sliceFrom? t a = some (sliceFrom t a) := by
  simp only [sliceFrom?]
  rw [if_pos h]

/-- Push sequence of the private `TextField::text_cursor` renderer path;
`none` models a panicking byte slice.  The cursor-prefix slice inside
`calculate_width_offset` and the cursor-suffix slice inside
`get_cursor_range` abort whenever the cursor is off a char boundary, and
each pushed slice aborts when its range is reversed or misaligned. -/
def text_cursor_instrs (cw : Char → Option Nat) (cs : α) (tf : TextField) (W : Nat) :
    Option (List (List Char × Option α)) :=
  if isBoundary tf.text tf.char = false then none
  else
    let off := calculate_width_offset cw tf W
    match tf.get_cursor_range with
    | some (s, e) =>
      (sliceBytes? tf.text off s).bind fun x =>
        (sliceBytes? tf.text s e).bind fun y =>
          (sliceFrom? tf.text e).map fun z =>
            [(x, none), (y, some cs), (z, none)]
    | none =>
      (sliceFrom? tf.text off).map fun x => [(x, none), ([' '], some cs)]

/-- Push sequence of the private `TextField::text_cursor_select` renderer
path, including the `from`-clamping against the scroll offset; `none` models
a panicking byte slice.  In particular, when the clamped selection start
exceeds the cursor start, the else arm slices the reversed range
`text[from..start]` and the program aborts. -/
def text_cursor_select_instrs (cw : Char → Option Nat) (f t : Nat) (cs ss : α)
    (tf : TextField) (W : Nat) : Option (List (List Char × Option α)) :=
  if isBoundary tf.text tf.char = false then none
  else
    let off := calculate_width_offset cw tf W
    (if off < f then
        (sliceBytes? tf.text off f).map fun x => [(x, (none : Option α))]
      else some []).bind fun head =>
      let f2 := if off < f then f else off
      match tf.get_cursor_range with
      | some (s, e) =>
        if f2 = s then
          (sliceBytes? tf.text s e).bind fun x =>
            (sliceBytes? tf.text e t).bind fun y =>
              (sliceFrom? tf.text t).map fun z =>
                head ++ [(x, some cs), (y, some ss), (z, none)]
        else
          (sliceBytes? tf.text f2 s).bind fun x =>
            (sliceBytes? tf.text s e).bind fun y =>
              (sliceFrom? tf.text e).map fun z =>
                head ++ [(x, some ss), (y, some cs), (z, none)]
      | none =>
        (sliceFrom? tf.text f2).map fun x => head ++ [(x, some ss), ([' '], some cs)]

/-- Models `TextField::insert_formatted_text` as the sequence of backend
output units it produces: nothing when the budget is zero, otherwise the
cursor-only or cursor-plus-selection push sequence followed by the final
padding of the builder's Drop; `none` models the abort of a panicking byte
slice underneath. -/
def insert_formatted_text (cw : Char → Option Nat) (cs ss : α) (tf : TextField)
    (W : Nat) : Option (List (Seg α)) :=
  if W = 0 then some []
  else
    match tf.normSelect with
    | some (f, t) =>
      if f ≠ t then
        (text_cursor_select_instrs cw f t cs ss tf W).map fun L =>
          lb_finish (runPushes cw (W, []) L)
      else
        (text_cursor_instrs cw cs tf W).map fun L => lb_finish (runPushes cw (W, []) L)
    | none =>
      (text_cursor_instrs cw cs tf W).map fun L => lb_finish (runPushes cw (W, []) L)

theorem text_cursor_instrs_chars (cw : Char → Option Nat) (cs : α) (tf : TextField)
    (W : Nat) (L : List (List Char × Option α))
    (hL : text_cursor_instrs cw cs tf W = some L) :
    ∀ ins ∈ L, ∀ c ∈ ins.1, c ∈ tf.text ∨ c = ' ' := by
  intro ins hins c hc
  simp only [text_cursor_instrs] at hL
  by_cases hbad : isBoundary tf.text tf.char = false
  · rw [if_pos hbad] at hL
    cases hL
  · rw [if_neg hbad] at hL
    cases hcr : tf.get_cursor_range with
    | some p =>
      obtain ⟨s, e⟩ := p
      simp only [hcr] at hL
      cases h1 : sliceBytes? tf.text (calculate_width_offset cw tf W) s with
      | none => rw [h1, Option.none_bind] at hL; cases hL
      | some x =>
        rw [h1, Option.some_bind] at hL
        cases h2 : sliceBytes? tf.text s e with
        | none => rw [h2, Option.none_bind] at hL; cases hL
        | some y =>
          rw [h2, Option.some_bind] at hL
          cases h3 : sliceFrom? tf.text e with
          | none => rw [h3, Option.map_none'] at hL; cases hL
          | some z =>
            rw [h3, Option.map_some'] at hL
            injection hL with hL
            subst hL
            simp only [List.mem_cons, List.not_mem_nil, or_false] at hins
            rcases hins with rfl | rfl | rfl
            · exact Or.inl (sliceBytes?_mem _ _ _ _ h1 c hc)
            · exact Or.inl (sliceBytes?_mem _ _ _ _ h2 c hc)
            · exact Or.inl (sliceFrom?_mem _ _ _ h3 c hc)
    | none =>
      simp only [hcr] at hL
      cases h1 : sliceFrom? tf.text (calculate_width_offset cw tf W) with
      | none => rw [h1, Option.map_none'] at hL; cases hL
      | some x =>
        rw [h1, Option.map_some'] at hL
        injection hL with hL
        subst hL
        simp only [List.mem_cons, List.not_mem_nil, or_false] at hins
        rcases hins with rfl | rfl
        · exact Or.inl (sliceFrom?_mem _ _ _ h1 c hc)
        · simp only [List.mem_singleton] at hc
          exact Or.inr hc

theorem text_cursor_select_instrs_chars (cw : Char → Option Nat) (f t : Nat)
    (cs ss : α) (tf : TextField) (W : Nat) (L : List (List Char × Option α))
    (hL : text_cursor_select_instrs cw f t cs ss tf W = some L) :
    ∀ ins ∈ L, ∀ c ∈ ins.1, c ∈ tf.text ∨ c = ' ' := by
  intro ins hins c hc
  simp only [text_cursor_select_instrs] at hL
  by_cases hbad : isBoundary tf.text tf.char = false
  · rw [if_pos hbad] at hL
    cases hL
  · rw [if_neg hbad] at hL
    have hhead : ∃ head, (if calculate_width_offset cw tf W < f then
          (sliceBytes? tf.text (calculate_width_offset cw tf W) f).map
            fun x => [(x, (none : Option α))]
        else some []) = some head ∧ ∀ ins2 ∈ head, ∀ d ∈ ins2.1, d ∈ tf.text := by
      by_cases hoff : calculate_width_offset cw tf W < f
      · cases h0 : sliceBytes? tf.text (calculate_width_offset cw tf W) f with
        | none =>
          rw [if_pos hoff, h0, Option.map_none'] at hL
          rw [Option.none_bind] at hL
          cases hL
        | some x0 =>
          refine ⟨[(x0, none)], ?_, ?_⟩
          · rw [if_pos hoff, Option.map_some']
          · intro ins2 hins2 d hd
            simp only [List.mem_singleton] at hins2
            subst hins2
            exact sliceBytes?_mem _ _ _ _ h0 d hd
      · exact ⟨[], by rw [if_neg hoff], by intro ins2 hins2; simp at hins2⟩
    obtain ⟨head, hhead1, hhead2⟩ := hhead
    rw [hhead1, Option.some_bind] at hL
    cases hcr : tf.get_cursor_range with
    | some p =>
      obtain ⟨s, e⟩ := p
      simp only [hcr] at hL
      by_cases hfs : (if calculate_width_offset cw tf W < f then f
          else calculate_width_offset cw tf W) = s
      · rw [if_pos hfs] at hL
        cases h1 : sliceBytes? tf.text s e with
        | none => rw [h1, Option.none_bind] at hL; cases hL
        | some x =>
          rw [h1, Option.some_bind] at hL
          cases h2 : sliceBytes? tf.text e t with
          | none => rw [h2, Option.none_bind] at hL; cases hL
          | some y =>
            rw [h2, Option.some_bind] at hL
            cases h3 : sliceFrom? tf.text t with
            | none => rw [h3, Option.map_none'] at hL; cases hL
            | some z =>
              rw [h3, Option.map_some'] at hL
              injection hL with hL
              subst hL
              simp only [List.mem_append, List.mem_cons, List.not_mem_nil,
                or_false] at hins
              rcases hins with hins | rfl | rfl | rfl
              · exact Or.inl (hhead2 ins hins c hc)
              · exact Or.inl (sliceBytes?_mem _ _ _ _ h1 c hc)
              · exact Or.inl (sliceBytes?_mem _ _ _ _ h2 c hc)
              · exact Or.inl (sliceFrom?_mem _ _ _ h3 c hc)
      · rw [if_neg hfs] at hL
        cases h1 : sliceBytes? tf.text (if calculate_width_offset cw tf W < f then f
            else calculate_width_offset cw tf W) s with
        | none => rw [h1, Option.none_bind] at hL; cases hL
        | some x =>
          rw [h1, Option.some_bind] at hL
          cases h2 : sliceBytes? tf.text s e with
          | none => rw [h2, Option.none_bind] at hL; cases hL
          | some y =>
            rw [h2, Option.some_bind] at hL
            cases h3 : sliceFrom? tf.text e with
            | none => rw [h3, Option.map_none'] at hL; cases hL
            | some z =>
              rw [h3, Option.map_some'] at hL
              injection hL with hL
              subst hL
              simp only [List.mem_append, List.mem_cons, List.not_mem_nil,
                or_false] at hins
              rcases hins with hins | rfl | rfl | rfl
              · exact Or.inl (hhead2 ins hins c hc)
              · exact Or.inl (sliceBytes?_mem _ _ _ _ h1 c hc)
              · exact Or.inl (sliceBytes?_mem _ _ _ _ h2 c hc)
              · exact Or.inl (sliceFrom?_mem _ _ _ h3 c hc)
    | none =>
      simp only [hcr] at hL
      cases h1 : sliceFrom? tf.text (if calculate_width_offset cw tf W < f then f
          else calculate_width_offset cw tf W) with
      | none => rw [h1, Option.map_none'] at hL; cases hL
      | some x =>
        rw [h1, Option.map_some'] at hL
        injection hL with hL
        subst hL
        simp only [List.mem_append, List.mem_cons, List.not_mem_nil, or_false] at hins
        rcases hins with hins | rfl | rfl
        · exact Or.inl (hhead2 ins hins c hc)
        · exact Or.inl (sliceFrom?_mem _ _ _ h1 c hc)
        · simp only [List.mem_singleton] at hc
          exact Or.inr hc

/-- Whenever the cursor sits on a char boundary, so does the scroll offset,
and it does not exceed the cursor. -/
theorem calculate_width_offset_le (cw : Char → Option Nat) (tf : TextField) (W : Nat)
    (h : isBoundary tf.text tf.char = true) :
    isBoundary tf.text (calculate_width_offset cw tf W) = true ∧
    calculate_width_offset cw tf W ≤ tf.char := by
  obtain ⟨hjoin, hlen⟩ := splitAtByte_of_isBoundary tf.text tf.char h
  by_cases hfast : tf.char + 1 < W
  · simp only [calculate_width_offset]
    rw [if_pos hfast]
    exact ⟨isBoundary_zero _, Nat.zero_le _⟩
  · simp only [calculate_width_offset]
    rw [if_neg hfast]
    rcases cwoScan_mem cw W (charIndices (splitAtByte tf.text tf.char).1)
      (listWidth cw (splitAtByte tf.text tf.char).1 + 2) tf.char with heq | ⟨c, hc⟩
    · rw [heq]
      exact ⟨h, le_refl _⟩
    · obtain ⟨j, hj1, hj2, hj3⟩ := charIndicesFrom_mem _ 0 _ hc
      simp only [Nat.zero_add] at hj1
      constructor
      · rw [hj1, hjoin]
        exact isBoundary_append_left _ _ _ hj2
      · rw [hj1]
        omega

/-- Whenever the cursor sits on a char boundary, the cursor-only renderer
path completes: none of its byte slices panics. -/
theorem text_cursor_instrs_total (cw : Char → Option Nat) (cs : α) (tf : TextField)
    (W : Nat) (hb : isBoundary tf.text tf.char = true) :
    ∃ L, text_cursor_instrs cw cs tf W = some L := by
  obtain ⟨hob, hole⟩ := calculate_width_offset_le cw tf W hb
  simp only [text_cursor_instrs]
  rw [if_neg (by rw [hb]; simp)]
  cases hsuf : (splitAtByte tf.text tf.char).2 with
  | nil =>
    have hcr : tf.get_cursor_range = none := by
      simp [TextField.get_cursor_range, hsuf]
    rw [hcr]
    simp only [sliceFrom?_of_boundary tf.text _ hob, Option.map_some']
    exact ⟨_, rfl⟩
  | cons ch rest =>
    have hcr : tf.get_cursor_range = some (tf.char, tf.char + utf8Len ch) := by
      simp [TextField.get_cursor_range, hsuf]
    rw [hcr]
    obtain ⟨hjoin, hlen⟩ := splitAtByte_of_isBoundary tf.text tf.char hb
    have hdecomp : tf.text = ((splitAtByte tf.text tf.char).1 ++ [ch]) ++ rest := by
      conv_lhs => rw [hjoin]
      rw [hsuf]
      simp
    have hlen2 : byteLen ((splitAtByte tf.text tf.char).1 ++ [ch]) =
        tf.char + utf8Len ch := by
      rw [byteLen_append, hlen, byteLen_cons, byteLen_nil]
      omega
    have he : isBoundary tf.text (tf.char + utf8Len ch) = true := by
      rw [hdecomp]
      exact isBoundary_of_byteLen_eq _ rest _ hlen2.symm
    simp only [sliceBytes?_of_boundary tf.text _ _ hole hob hb,
      sliceBytes?_of_boundary tf.text _ _ (Nat.le_add_right _ _) hb he,
      sliceFrom?_of_boundary tf.text _ he, Option.some_bind, Option.map_some']
    exact ⟨_, rfl⟩

/-- C3 (amended): whenever a render completes, its output — final padding
included — has total display width at most the budget `W`, with equality
whenever every character of the buffer (and the blank cursor cell) occupies
at most one column; and with the cursor on a char boundary and no active
selection the render always completes.  (In this model segments are lists of
characters, so no segment can split a character's encoding.)  The render is
not total: with an active selection whose clamped start exceeds the cursor
start (a state the boundary invariants of the spec allow), the reversed
slice `text[from..start]` panics and no line is emitted.  A width-2
character arriving with one free column is dropped without compensating
padding, so the equality fails in general; see the counterexample for both
divergences. -/
theorem c3_insert_formatted_text_width (α : Type) (cw : Char → Option Nat)
    (cs ss : α) (tf : TextField) (W : Nat) :
    (∀ out, insert_formatted_text cw cs ss tf W = some out →
      totalWidth cw out ≤ W ∧
      ((∀ c ∈ tf.text, (cw c).getD 0 ≤ 1) → (cw ' ').getD 0 ≤ 1 →
        totalWidth cw out = W)) ∧
    (isBoundary tf.text tf.char = true → tf.normSelect = none →
      ∃ out, insert_formatted_text cw cs ss tf W = some out) := by
  constructor
  · intro out hout
    by_cases hW : W = 0
    · subst hW
      simp only [insert_formatted_text, if_pos rfl] at hout
      injection hout with hout
      subst hout
      exact ⟨Nat.zero_le _, fun _ _ => rfl⟩
    · simp only [insert_formatted_text] at hout
      rw [if_neg hW] at hout
      cases hns : tf.normSelect with
      | none =>
        simp only [hns] at hout
        cases hI : text_cursor_instrs cw cs tf W with
        | none => rw [hI, Option.map_none'] at hout; cases hout
        | some L =>
          rw [hI, Option.map_some'] at hout
          injection hout with hout
          subst hout
          obtain ⟨hle, heq⟩ := finish_run_width cw L W
          refine ⟨hle, ?_⟩
          intro h1 h2
          refine heq ?_
          intro ins hins c hc
          rcases text_cursor_instrs_chars cw cs tf W L hI ins hins c hc with hm | rfl
          · exact h1 c hm
          · exact h2
      | some p =>
        obtain ⟨f, t⟩ := p
        simp only [hns] at hout
        by_cases hft : f ≠ t
        · rw [if_pos hft] at hout
          cases hI : text_cursor_select_instrs cw f t cs ss tf W with
          | none => rw [hI, Option.map_none'] at hout; cases hout
          | some L =>
            rw [hI, Option.map_some'] at hout
            injection hout with hout
            subst hout
            obtain ⟨hle, heq⟩ := finish_run_width cw L W
            refine ⟨hle, ?_⟩
            intro h1 h2
            refine heq ?_
            intro ins hins c hc
            rcases text_cursor_select_instrs_chars cw f t cs ss tf W L hI ins hins c hc
              with hm | rfl
            · exact h1 c hm
            · exact h2
        · rw [if_neg hft] at hout
          cases hI : text_cursor_instrs cw cs tf W with
          | none => rw [hI, Option.map_none'] at hout; cases hout
          | some L =>
            rw [hI, Option.map_some'] at hout
            injection hout with hout
            subst hout
            obtain ⟨hle, heq⟩ := finish_run_width cw L W
            refine ⟨hle, ?_⟩
            intro h1 h2
            refine heq ?_
            intro ins hins c hc
            rcases text_cursor_instrs_chars cw cs tf W L hI ins hins c hc with hm | rfl
            · exact h1 c hm
            · exact h2
  · intro hb hns
    by_cases hW : W = 0
    · refine ⟨[], ?_⟩
      simp only [insert_formatted_text]
      rw [if_pos hW]
    · obtain ⟨L, hL⟩ := text_cursor_instrs_total cw cs tf W hb
      refine ⟨lb_finish (runPushes cw (W, []) L), ?_⟩
      simp only [insert_formatted_text, hns]
      rw [if_neg hW, hL, Option.map_some']

/-- Concrete instance of C3 with a one-column-per-character table on "ab"
with a 5-column budget: the render completes and fills the budget exactly. -/
theorem c3_insert_formatted_text_width_witness :
    totalWidth (fun _ => some 1)
      [Seg.plain ['a', 'b'], Seg.styled [' '] (), Seg.pad 2] = 5 :=
  ((c3_insert_formatted_text_width Unit (fun _ => some 1) () ()
      (TextField.new ['a', 'b']) 5).1
    [Seg.plain ['a', 'b'], Seg.styled [' '] (), Seg.pad 2] (by decide)).2
    (fun c _ => by simp) (by simp)

/-- C3 counterexample: rendering a buffer holding one width-2 character into
a 1-column budget completes but emits only empty segments and no padding —
total width 0, not the claimed exact budget 1; and in the boundary-valid
state "abcdef" with cursor 0 and selection (2, 4) the render aborts on the
reversed slice `text[2..0]` instead of emitting any line. -/
theorem c3_counterexample :
    ((insert_formatted_text uw () () ⟨['🦀'], 0, none⟩ 1).map (totalWidth uw) =
      some 0 ∧ (0 : Nat) ≠ 1) ∧
    insert_formatted_text uw () ()
      ⟨['a', 'b', 'c', 'd', 'e', 'f'], 0, some (2, 4)⟩ 10 = none := by
  decide
